import Mathlib

/-!
# Verification of the tablet load balancer planner

Shallow embedding of `service::load_balancer::make_plan(sstring dc)` from
`src/service/tablet_allocator.cc` (lines 144-427), together with proofs of the
specification's properties about the per-DC migration planner.

Modelling conventions:
* Opaque identifiers (`host_id`, `table_id`, `tablet_id`, DC and rack names) are
  modelled as `Nat`.
* `uint64_t`/`size_t` counters are modelled as `Nat`.  The only subtraction the
  planner performs (`tablet_count - 1`, lines 317, 394, 400) is evaluated only in
  states where the count is positive (proved below), so truncated `Nat`
  subtraction agrees with the machine arithmetic.
* `load_type` (`double`, line 79) is modelled as the exact rational
  `tablets / shard_count`, represented as an unreduced fraction `load_t` and
  compared by cross-multiplication (shard counts are positive wherever the
  planner compares loads).  This is the exact-arithmetic idealization of IEEE
  `double`; theorems about loads are also stated over `ℚ` via `load_t.val`.
* `std::unordered_map` is modelled as an association list in insertion order;
  `std::unordered_set<global_tablet_id>` as a duplicate-free list in insertion
  order, with `begin()` reading the head.  C++ leaves those orders unspecified;
  the model fixes one deterministic refinement.
* `std::make_heap`/`pop_heap`/`push_heap` are modelled by a list together with
  `pop_max_by`, which removes the first element with the maximal key; a popped
  element that the source re-pushes (`push_heap` on the back element) is
  re-appended at the end.  This refines the source's binary heap: both always
  select an element with the maximal key, differing only in tie order.
* The cooperative-scheduling yields (`coroutine::maybe_yield`) have no effect on
  the computed plan and are not modelled.
-/

set_option linter.unusedVariables false

namespace TabletAlloc

/-- A placement of one tablet replica at a `(host, shard)` pair.
Source: `locator::tablet_replica`, used as `global_shard_id` in the balancer. -/
structure tablet_replica where
  host : Nat
  shard : Nat
deriving DecidableEq

/-- Tablet identity across the cluster: `(table, tablet)`.
Source: `locator::global_tablet_id`. -/
structure global_tablet_id where
  table : Nat
  tablet : Nat
deriving DecidableEq

/-- Per-tablet replica list.  Source: `locator::tablet_info`. -/
structure tablet_info where
  replicas : List tablet_replica
deriving DecidableEq

/-- Per-table tablet map: tablet id to info, plus the pending transitions
(only emptiness of `transitions()` is observed by the planner, line 233). -/
structure tablet_map where
  tablets : List (Nat × tablet_info)
  transitions : List Nat
deriving DecidableEq

/-- One topology entry: what the planner reads from `locator::node`
(`host_id()`, `dc_rack()`, `get_state()`, `get_shard_count()`). -/
structure node_desc where
  host : Nat
  dc : Nat
  rack : Nat
  is_normal : Bool
  shard_count : Nat
deriving DecidableEq

/-- The input snapshot: the token-metadata view the planner traverses.
`nodes_list` is `topology::for_each_node` order; `tables` is
`tablets().all_tables()` order. -/
structure snapshot where
  nodes_list : List node_desc
  tables : List (Nat × tablet_map)
deriving DecidableEq

/-- Per-shard load (source lines 81-90).  `candidates` models the
`std::unordered_set<global_tablet_id>`: duplicate-free, `begin()` = head. -/
structure shard_load where
  tablet_count : Nat
  candidates : List global_tablet_id
deriving DecidableEq

/-- Per-node load (source lines 92-121).  The source's `node` field is never
assigned nor read by `make_plan` and is omitted; the stored `avg_load` is kept
equal to `tablet_count / shard_count` by `update()` at every point of use, so it
is modelled as the derived function `get_avg_load`. -/
structure node_load where
  shard_count : Nat
  tablet_count : Nat
  shards_by_load : List Nat
  shards : List shard_load
deriving DecidableEq

/-- One entry of the migration plan.  Source: `tablet_migration_info` (line 389). -/
structure tablet_migration_info where
  tablet : global_tablet_id
  src : tablet_replica
  dst : tablet_replica
deriving DecidableEq

/-- A load value `num / den` kept as an unreduced fraction of counters
(`load_type`, line 79, is `double`; the planner only ever compares loads, and
all comparisons below are exact cross-multiplications). -/
structure load_t where
  num : Nat
  den : Nat
deriving DecidableEq

/-- The rational value of a load (`den` is a positive shard count wherever the
planner reads a load). -/
def load_t.val (a : load_t) : ℚ :=
  (a.num : ℚ) / (a.den : ℚ)

/-- `a < b` on loads: exact comparison of `a.num / a.den < b.num / b.den`. -/
def load_lt (a b : load_t) : Prop :=
  a.num * b.den < b.num * a.den

instance (a b : load_t) : Decidable (load_lt a b) :=
  inferInstanceAs (Decidable (_ < _))

/-- `a <= b` on loads. -/
def load_le (a b : load_t) : Prop :=
  a.num * b.den ≤ b.num * a.den

instance (a b : load_t) : Decidable (load_le a b) :=
  inferInstanceAs (Decidable (_ ≤ _))

/-- `a == b` on loads (`double` equality of the exact values). -/
def load_same (a b : load_t) : Prop :=
  a.num * b.den = b.num * a.den

instance (a b : load_t) : Decidable (load_same a b) :=
  inferInstanceAs (Decidable (_ = _))

/-- `std::max` on loads: `(a < b) ? b : a`. -/
def load_max (a b : load_t) : load_t :=
  if load_lt a b then b else a

/-- `node_load::get_avg_load` (line 108): `double(tablets) / shard_count`. -/
def get_avg_load (tablets shard_count : Nat) : load_t :=
  ⟨tablets, shard_count⟩

def empty_node : node_load := ⟨0, 0, [], []⟩

def empty_shard : shard_load := ⟨0, []⟩

/-- First-match lookup in the `nodes` association list
(`std::unordered_map<host_id, node_load>`). -/
def lookupN : List (Nat × node_load) → Nat → Option node_load
  | [], _ => none
  | p :: rest, h => if p.1 = h then some p.2 else lookupN rest h

def containsN (l : List (Nat × node_load)) (h : Nat) : Bool :=
  (lookupN l h).isSome

/-- Update the entry for key `h` in place (no-op when absent). -/
def updateN : List (Nat × node_load) → Nat → (node_load → node_load) → List (Nat × node_load)
  | [], _, _ => []
  | p :: rest, h, f => if p.1 = h then (p.1, f p.2) :: rest else p :: updateN rest h f

/-- `nodes[h]` on `std::unordered_map`: update when present, default-construct
and insert otherwise.  Insertion order is modelled by appending. -/
def upsertN : List (Nat × node_load) → Nat → (node_load → node_load) → List (Nat × node_load)
  | [], h, f => [(h, f empty_node)]
  | p :: rest, h, f => if p.1 = h then (p.1, f p.2) :: rest else p :: upsertN rest h f

/-- `shards[i]` read access (in-bounds at every use site of the source). -/
def get_shard : List shard_load → Nat → shard_load
  | [], _ => empty_shard
  | x :: _, 0 => x
  | _ :: xs, n + 1 => get_shard xs n

/-- `shards[i]` write access (no-op when out of bounds). -/
def set_shard : List shard_load → Nat → (shard_load → shard_load) → List shard_load
  | [], _, _ => []
  | x :: xs, 0, f => f x :: xs
  | x :: xs, n + 1, f => x :: set_shard xs n f

/-- `std::vector::resize` for the `shards` vector (line 156). -/
def resize_shards (l : List shard_load) (n : Nat) : List shard_load :=
  l.take n ++ List.replicate (n - l.length) empty_shard

/-- Model of `std::pop_heap` followed by reading `back()`: remove the first
element maximal for the strict order `lt`.  The source's binary heap also
yields an element with the maximal key; only the order among equal keys
differs. -/
def pop_max_by {α : Type} (lt : α → α → Bool) : List α → Option (α × List α)
  | [] => none
  | x :: xs =>
    match pop_max_by lt xs with
    | none => some (x, [])
    | some (m, rest) => if lt x m then some (m, x :: rest) else some (x, xs)

/-- `topology::find_node` / `get_node`: first matching topology entry. -/
def find_node (s : snapshot) (h : Nat) : Option node_desc :=
  s.nodes_list.find? (fun nd => nd.host == h)

/-- The rack of a host per the topology (`dc_rack().rack`).  `get_node` on the
source throws for hosts absent from the topology; the planner only calls it on
hosts that are present (see `hosts_known` below), where the default is unused. -/
def rack_of (s : snapshot) (h : Nat) : Nat :=
  ((find_node s h).map node_desc.rack).getD 0

/-- `tablet_metadata::get_tablet_map` (line 356); total with a default the
planner never hits (candidate tablets always come from `tables`). -/
def get_tablet_map (s : snapshot) (table : Nat) : tablet_map :=
  ((s.tables.find? (fun p => p.1 == table)).map Prod.snd).getD ⟨[], []⟩

/-- `tablet_map::get_tablet_info` (line 357); total with a default the planner
never hits. -/
def tmap_tablet_info (tm : tablet_map) (tid : Nat) : tablet_info :=
  ((tm.tablets.find? (fun p => p.1 == tid)).map Prod.snd).getD ⟨[]⟩

/-- Replica list of a tablet in the input snapshot (lines 356-357). -/
def tablet_info_of (s : snapshot) (g : global_tablet_id) : tablet_info :=
  tmap_tablet_info (get_tablet_map s g.table) g.tablet

inductive plan_error where
  /-- `std::runtime_error` of line 158 or `on_internal_error` of line 173:
  fatal to the planning call. -/
  | invalid_topology
  /-- Fuel exhaustion of the loop model; proved unreachable (claim C10). -/
  | out_of_fuel
deriving DecidableEq

/-- One topology entry of phase A (lines 152-160): collect a normal node of
the DC, record its shard count, size the `shards` vector, and fail on a zero
shard count. -/
def select_step (dc : Nat) (acc : List (Nat × node_load)) (nd : node_desc) :
    Except plan_error (List (Nat × node_load)) :=
  if nd.is_normal = true ∧ nd.dc = dc then
    if nd.shard_count = 0 then .error .invalid_topology
    else .ok (upsertN acc nd.host (fun nl =>
      { nl with shard_count := nd.shard_count,
                shards := resize_shards nl.shards nd.shard_count }))
  else .ok acc

/-- Phase A (lines 151-161). -/
def select_nodes (s : snapshot) (dc : Nat) : Except plan_error (List (Nat × node_load)) :=
  s.nodes_list.foldlM (select_step dc) []

/-- The `(table, tablet, replica)` traversal sequence of the nested loops
`all_tables` / `for_each_tablet` / `ti.replicas` (lines 165-178, 232-253),
flattened in traversal order. -/
def replica_triples (s : snapshot) : List (Nat × Nat × tablet_replica) :=
  s.tables.foldr
    (fun tp acc =>
      tp.2.tablets.foldr
        (fun tl acc2 => tl.2.replicas.map (fun r => (tp.1, tl.1, r)) ++ acc2)
        acc)
    []

/-- One replica of phase B (lines 167-176): count the replica on its node and
fail when it targets a shard at or beyond the node's shard count (the
increment precedes the check in the source; the outcome is identical). -/
def count_node_step (nodes : List (Nat × node_load)) (t : Nat × Nat × tablet_replica) :
    Except plan_error (List (Nat × node_load)) :=
  if containsN nodes t.2.2.host = true then
    let nodes1 := updateN nodes t.2.2.host
      (fun nl => { nl with tablet_count := nl.tablet_count + 1 })
    if ((lookupN nodes1 t.2.2.host).getD empty_node).shard_count ≤ t.2.2.shard then
      .error .invalid_topology
    else .ok nodes1
  else .ok nodes

/-- Phase B (lines 165-178). -/
def count_node_tablets (s : snapshot) (nodes0 : List (Nat × node_load)) :
    Except plan_error (List (Nat × node_load)) :=
  (replica_triples s).foldlM count_node_step nodes0

/-- One node of the phase C fold (lines 185-194). -/
def bounds_step (acc : load_t × load_t × Option Nat) (p : Nat × node_load) :
    load_t × load_t × Option Nat :=
  let a := get_avg_load p.2.tablet_count p.2.shard_count
  let mn := if acc.2.2.isNone = true ∨ load_lt a acc.1 then (a, some p.1) else (acc.1, acc.2.2)
  let mx := if load_lt acc.2.1 a then a else acc.2.1
  (mn.1, mx, mn.2)

/-- Phase C fold (lines 182-194): running `(min_load, max_load, min_load_node)`
with the source's initial values `(0, 0, nullopt)`. -/
def compute_load_bounds (nodes : List (Nat × node_load)) : load_t × load_t × Option Nat :=
  nodes.foldl bounds_step (⟨0, 1⟩, ⟨0, 1⟩, none)

/-- `!tmap.transitions().empty()` for some table (line 233). -/
def has_transitions (s : snapshot) : Bool :=
  s.tables.any (fun tp => !tp.2.transitions.isEmpty)

/-- `candidates.emplace(gtid)` on an `unordered_set`: insert if absent. -/
def add_candidate (l : List global_tablet_id) (g : global_tablet_id) : List global_tablet_id :=
  if g ∈ l then l else l ++ [g]

/-- The per-node effect of one replica in phase D (lines 240-251): bump the
shard's tablet count, record the candidate, and push the shard on its 0 to 1
transition. -/
def shard_bump (t : Nat × Nat × tablet_replica) (nl : node_load) : node_load :=
  let sl := get_shard nl.shards t.2.2.shard
  { nl with
    shards_by_load :=
      if sl.tablet_count = 0 then nl.shards_by_load ++ [t.2.2.shard]
      else nl.shards_by_load,
    shards := set_shard nl.shards t.2.2.shard (fun sl2 =>
      { tablet_count := sl2.tablet_count + 1,
        candidates := add_candidate sl2.candidates ⟨t.1, t.2.1⟩ }) }

/-- One replica of phase D, applied on the node map. -/
def count_shard_step (nodes : List (Nat × node_load)) (t : Nat × Nat × tablet_replica) :
    List (Nat × node_load) :=
  if containsN nodes t.2.2.host = true then
    updateN nodes t.2.2.host (shard_bump t)
  else nodes

/-- Phase D (lines 232-253): per-shard tablet counts and candidate sets, with
the shard pushed onto `shards_by_load` on its 0 to 1 transition.  The source
checks each table's transitions before scanning it and returns an empty plan on
the first hit; since the accumulated state is discarded in that case, checking
all tables up front yields the same result (`none` = transitions present). -/
def count_shard_tablets (s : snapshot) (nodes0 : List (Nat × node_load)) :
    Option (List (Nat × node_load)) :=
  if has_transitions s = true then none
  else some ((replica_triples s).foldl count_shard_step nodes0)

/-- Modelled from the spec: `locator::load_sketch` (`locator/load_sketch.hh`) is
not under `src/`.  Per spec section 4.2 it tracks per-shard live tablet counts of
the target node, initialised from the snapshot.  `populate_sketch` builds those
counts (one per target shard, counting current replicas on each shard). -/
def populate_sketch (s : snapshot) (target : Nat) : List Nat :=
  let n := ((find_node s target).map node_desc.shard_count).getD 0
  (replica_triples s).foldl
    (fun counts t =>
      if t.2.2.host = target ∧ t.2.2.shard < counts.length then
        counts.set t.2.2.shard (counts.getD t.2.2.shard 0 + 1)
      else counts)
    (List.replicate n 0)

def min_count_go : List Nat → Nat → Nat → Nat → Nat
  | [], _, best, _ => best
  | c :: cs, i, best, bestv =>
    if c < bestv then min_count_go cs (i + 1) i c else min_count_go cs (i + 1) best bestv

/-- Index of the least-loaded shard, ties to the lowest shard id. -/
def min_count_idx : List Nat → Nat
  | [] => 0
  | c :: cs => min_count_go cs 1 0 c

/-- Modelled from the spec: `load_sketch::next_shard` returns the shard with the
lowest current count (ties broken by lowest shard id) and increments it. -/
def next_shard (counts : List Nat) : Nat × List Nat :=
  let i := min_count_idx counts
  (i, counts.set i (counts.getD i 0 + 1))

/-- `rack_load[rack] += 1` on the `std::unordered_map<sstring, int>` of line 354
(`operator[]` default-inserts 0). -/
def bump_rack : List (Nat × Nat) → Nat → List (Nat × Nat)
  | [], rk => [(rk, 1)]
  | p :: rest, rk => if p.1 = rk then (p.1, p.2 + 1) :: rest else p :: bump_rack rest rk

/-- The `rack_load` histogram of lines 354-368: racks of the tablet's in-DC
replicas.  In the source it is built inside the replica loop that breaks on a
target replica; it is only read when no replica is on the target, in which case
the loop scanned every replica, so this full fold coincides. -/
def rack_load_of (s : snapshot) (dc : Nat) (g : global_tablet_id) : List (Nat × Nat) :=
  (tablet_info_of s g).replicas.foldl
    (fun hist r =>
      match find_node s r.host with
      | some nd => if nd.dc = dc then bump_rack hist nd.rack else hist
      | none => hist)
    []

/-- `std::max_element` over the histogram values (line 377); 0 on the empty
histogram, which the planner never queries. -/
def max_rack_load (hist : List (Nat × Nat)) : Nat :=
  (hist.map Prod.snd).foldl Nat.max 0

/-- `rack_load[rack]` read with `operator[]` default 0 (line 379). -/
def rack_count (hist : List (Nat × Nat)) (rk : Nat) : Nat :=
  ((hist.find? (fun p => p.1 == rk)).map Prod.snd).getD 0

/-- The static data of one planning call: the snapshot, the DC, the selected
target and `batch_size` (line 228). -/
structure plan_cfg where
  snap : snapshot
  dc : Nat
  target : Nat
  batch_size : Nat
deriving DecidableEq

/-- Ghost record of the counters read by the load-inversion guard (lines
317-318) at the moment a migration is emitted. -/
structure emit_rec where
  mig : tablet_migration_info
  src_tc : Nat
  src_sc : Nat
  tgt_tc : Nat
  tgt_sc : Nat
deriving DecidableEq

/-- The mutable state of the selection loop (lines 286-406).  `trace` is a ghost
field recording emission-time counters; it does not influence control flow. -/
structure loop_state where
  nodes : List (Nat × node_load)
  nodes_by_load : List Nat
  max_off_candidate_load : load_t
  sketch : List Nat
  plan : List tablet_migration_info
  trace : List emit_rec
deriving DecidableEq

/-- `nodes[h].avg_load` as read by `nodes_cmp` (line 260). -/
def avg_of (nodes : List (Nat × node_load)) (h : Nat) : load_t :=
  match lookupN nodes h with
  | some nl => get_avg_load nl.tablet_count nl.shard_count
  | none => ⟨0, 1⟩

inductive step_res where
  | stop (st : loop_state)
  | next (st : loop_state)

/-- Candidate erasure (line 349) combined with the deferred shard re-push
(lines 344-346): the picked shard's candidate head is dropped and the popped
shard id re-appended to the node's shard heap. -/
def erase_cand_nodes (nodes : List (Nat × node_load)) (src_host src_shard : Nat)
    (rest_shards : List Nat) : List (Nat × node_load) :=
  updateN nodes src_host (fun nl =>
    { nl with
      shards_by_load := rest_shards ++ [src_shard],
      shards := set_shard nl.shards src_shard (fun sl =>
        { sl with candidates := sl.candidates.drop 1 }) })

/-- Emission of one migration and its bookkeeping (lines 387-405), on top of
the candidate erasure.  The source mutates `nodes[target]` and
`nodes[src_host]` through references; the sequential map updates below read
each intermediate state, which coincides with the reference semantics even when
the two hosts alias.  The deferred re-pushes are cancelled exactly when the
decremented count reaches zero (lines 395-405). -/
def emit_state (cfg : plan_cfg) (st : loop_state) (src_host src_shard : Nat)
    (rest_nodes rest_shards : List Nat) (src_node_info target_info : node_load)
    (source_tablet : global_tablet_id) : loop_state :=
  let nodes1 := erase_cand_nodes st.nodes src_host src_shard rest_shards
  let ns := next_shard st.sketch
  let mig : tablet_migration_info :=
    ⟨source_tablet, ⟨src_host, src_shard⟩, ⟨cfg.target, ns.1⟩⟩
  let rec0 : emit_rec :=
    ⟨mig, src_node_info.tablet_count, src_node_info.shard_count,
     target_info.tablet_count, target_info.shard_count⟩
  let nodes2 := updateN nodes1 cfg.target
    (fun nl => { nl with tablet_count := nl.tablet_count + 1 })
  let src2 := (lookupN nodes2 src_host).getD empty_node
  let new_shard_tc := (get_shard src2.shards src_shard).tablet_count - 1
  let nodes3 := updateN nodes2 src_host (fun nl =>
    { nl with
      shards := set_shard nl.shards src_shard (fun sl =>
        { sl with tablet_count := sl.tablet_count - 1 }),
      shards_by_load :=
        if new_shard_tc = 0 then rest_shards else rest_shards ++ [src_shard] })
  let src3 := (lookupN nodes3 src_host).getD empty_node
  let new_node_tc := src3.tablet_count - 1
  let nodes4 := updateN nodes3 src_host
    (fun nl => { nl with tablet_count := nl.tablet_count - 1 })
  { nodes := nodes4,
    nodes_by_load :=
      if new_node_tc = 0 then rest_nodes else rest_nodes ++ [src_host],
    max_off_candidate_load := st.max_off_candidate_load,
    sketch := ns.2,
    plan := st.plan ++ [mig],
    trace := st.trace ++ [rec0] }

/-- One iteration of the selection loop (lines 286-406).  `stop` is a `break`
or the loop condition failing; `next` is a `continue` or a completed iteration.
The deferred `push_heap` calls re-append the popped element unless cancelled. -/
def step_fn (cfg : plan_cfg) (st : loop_state) : step_res :=
  if st.plan.length < cfg.batch_size then
    match pop_max_by (fun a b => decide (load_lt (avg_of st.nodes a) (avg_of st.nodes b)))
        st.nodes_by_load with
    | none => .stop st
    | some (src_host, rest_nodes) =>
      let src_node_info := (lookupN st.nodes src_host).getD empty_node
      let target_info := (lookupN st.nodes cfg.target).getD empty_node
      let src_avg := get_avg_load src_node_info.tablet_count src_node_info.shard_count
      let tgt_avg := get_avg_load target_info.tablet_count target_info.shard_count
      if load_same (load_max st.max_off_candidate_load src_avg) tgt_avg then .stop st
      else if load_le src_avg tgt_avg then .stop st
      else if load_lt (get_avg_load (src_node_info.tablet_count - 1) src_node_info.shard_count)
              (get_avg_load (target_info.tablet_count + 1) target_info.shard_count) then .stop st
      else if src_node_info.shards_by_load.isEmpty = true then
        .next { st with
          max_off_candidate_load := load_max st.max_off_candidate_load src_avg,
          nodes_by_load := rest_nodes }
      else
        match pop_max_by
            (fun a b => decide ((get_shard src_node_info.shards a).tablet_count <
              (get_shard src_node_info.shards b).tablet_count))
            src_node_info.shards_by_load with
        | none => .stop st
        | some (src_shard, rest_shards) =>
          match (get_shard src_node_info.shards src_shard).candidates with
          | [] =>
            .next { st with
              nodes := updateN st.nodes src_host
                (fun nl => { nl with shards_by_load := rest_shards }),
              nodes_by_load := rest_nodes ++ [src_host] }
          | source_tablet :: rest_cands =>
            let replicas := (tablet_info_of cfg.snap source_tablet).replicas
            let has_replica_on_target := replicas.any (fun r => r.host == cfg.target)
            let same_rack := rack_of cfg.snap cfg.target = rack_of cfg.snap src_host
            if has_replica_on_target = true then
              .next { st with
                nodes := erase_cand_nodes st.nodes src_host src_shard rest_shards,
                nodes_by_load := rest_nodes ++ [src_host] }
            else if ¬ same_rack ∧
                max_rack_load (rack_load_of cfg.snap cfg.dc source_tablet) <
                  rack_count (rack_load_of cfg.snap cfg.dc source_tablet)
                    (rack_of cfg.snap cfg.target) + 1 then
              .next { st with
                nodes := erase_cand_nodes st.nodes src_host src_shard rest_shards,
                nodes_by_load := rest_nodes ++ [src_host] }
            else
              .next (emit_state cfg st src_host src_shard rest_nodes rest_shards
                src_node_info target_info source_tablet)
  else .stop st

def cand_total : List shard_load → Nat
  | [] => 0
  | x :: xs => x.candidates.length + cand_total xs

/-- Loop variant for one node: remaining candidates plus live heap entries. -/
def node_measure (nl : node_load) : Nat :=
  cand_total nl.shards + nl.shards_by_load.length

def nodes_measure : List (Nat × node_load) → Nat
  | [] => 0
  | p :: rest => node_measure p.2 + nodes_measure rest

/-- Loop variant: every `next` outcome of `step_fn` strictly decreases it. -/
def state_measure (st : loop_state) : Nat :=
  nodes_measure st.nodes + st.nodes_by_load.length

/-- The selection loop, driven by fuel; `make_plan_dc` supplies fuel exceeding
the loop variant, and claim C10 proves the fuel never runs out. -/
def run_loop (cfg : plan_cfg) : Nat → loop_state → Option loop_state
  | 0, _ => none
  | fuel + 1, st =>
    match step_fn cfg st with
    | .stop st2 => some st2
    | .next st2 => run_loop cfg fuel st2

/-- Phases A-F of `make_plan(dc)`: everything before the selection loop.
`.ok none` is an early `co_return migration_plan()` (balanced DC, line 199, or
pending transitions, line 236); `.ok (some _)` carries the loop's initial state. -/
def init_of (s : snapshot) (dc : Nat) : Except plan_error (Option (plan_cfg × loop_state)) :=
  match select_nodes s dc with
  | .error e => .error e
  | .ok n1 =>
    match count_node_tablets s n1 with
    | .error e => .error e
    | .ok n2 =>
      let b := compute_load_bounds n2
      if load_same b.2.1 b.1 then .ok none
      else
        match b.2.2 with
        | none => .ok none
        | some target =>
          match count_shard_tablets s n2 with
          | none => .ok none
          | some n3 =>
            let batch := ((find_node s target).map node_desc.shard_count).getD 0
            .ok (some (⟨s, dc, target, batch⟩,
              ⟨n3, n3.map Prod.fst, ⟨0, 1⟩, populate_sketch s target, [], []⟩))

/-- `make_plan(dc)` returning the full final loop state (`none` = early empty
plan). -/
def make_plan_full (s : snapshot) (dc : Nat) : Except plan_error (Option loop_state) :=
  match init_of s dc with
  | .error e => .error e
  | .ok none => .ok none
  | .ok (some (cfg, st0)) =>
    match run_loop cfg (state_measure st0 + 1) st0 with
    | none => .error .out_of_fuel
    | some st => .ok (some st)

/-- `load_balancer::make_plan(sstring dc)` (lines 144-427): the per-DC planner. -/
def make_plan_dc (s : snapshot) (dc : Nat) : Except plan_error (List tablet_migration_info) :=
  match make_plan_full s dc with
  | .error e => .error e
  | .ok none => .ok []
  | .ok (some st) => .ok st.plan

/-- The `batch_size` of a planning call (line 228): the shard count of the
selected target node; 0 when no target is selected. -/
def batch_size_of (s : snapshot) (dc : Nat) : Nat :=
  match init_of s dc with
  | .ok (some (cfg, _)) => cfg.batch_size
  | _ => 0

/-- Sum of the per-shard tablet counts of a node (`Σ shards[s].tablet_count`). -/
def sum_shard_tc : List shard_load → Nat
  | [] => 0
  | x :: xs => x.tablet_count + sum_shard_tc xs

/-- The candidate set currently held for a `(host, shard)` position. -/
def cand_at (nodes : List (Nat × node_load)) (tr : tablet_replica) : List global_tablet_id :=
  match lookupN nodes tr.host with
  | some nl => (get_shard nl.shards tr.shard).candidates
  | none => []

/-- The number of replicas of the traversal landing on host `h`. -/
def cnt_for (l : List (Nat × Nat × tablet_replica)) (h : Nat) : Nat :=
  (l.filter (fun t => t.2.2.host == h)).length

/-- Structural health of one node's shard data (heap bounds and positivity,
heap and candidate duplicate-freeness). -/
def shardInv (nl : node_load) : Prop :=
  (∀ sh ∈ nl.shards_by_load,
    sh < nl.shards.length ∧ 1 ≤ (get_shard nl.shards sh).tablet_count) ∧
  nl.shards_by_load.Nodup ∧ (∀ sl ∈ nl.shards, sl.candidates.Nodup)

/-- Shape of a node entry right after phase A: zero counts, empty heap, all
shard slots empty, `shards` sized to a positive `shard_count`. -/
def nodeQ (nl : node_load) : Prop :=
  nl.tablet_count = 0 ∧ nl.shards_by_load = [] ∧ (∀ sl ∈ nl.shards, sl = empty_shard) ∧
  nl.shards.length = nl.shard_count ∧ 0 < nl.shard_count

/-- Every replica host of the snapshot is present in the topology.  The
source's `topology::get_node` throws on unknown hosts ("fails only on
programmer error" per the spec); this is the well-formedness under which the
total model coincides with the source. -/
def hosts_known (s : snapshot) : Prop :=
  ∀ t ∈ replica_triples s, (find_node s t.2.2.host).isSome = true

instance (s : snapshot) : Decidable (hosts_known s) :=
  inferInstanceAs (Decidable (∀ _ ∈ _, _))

/-- Some normal in-DC topology entry carries a zero shard count (trigger of the
`std::runtime_error` at line 158). -/
def zero_shard_cond (s : snapshot) (dc : Nat) : Prop :=
  ∃ nd ∈ s.nodes_list, nd.is_normal = true ∧ nd.dc = dc ∧ nd.shard_count = 0

/-- Some tablet replica on a collected (normal, in-DC) node references a shard
at or beyond that node's shard count (trigger of `on_internal_error`,
line 173), stated against the node map `nodes` built by phase A. -/
def bad_replica_cond (s : snapshot) (nodes : List (Nat × node_load)) : Prop :=
  ∃ t ∈ replica_triples s, ∃ nl, lookupN nodes t.2.2.host = some nl ∧
    nl.shard_count ≤ t.2.2.shard

/-- One pass of `step_fn` viewed as a total function on states: a `break` (or
an exhausted loop condition) leaves the state unchanged. -/
def step_once (cfg : plan_cfg) (st : loop_state) : loop_state :=
  match step_fn cfg st with
  | .stop st2 => st2
  | .next st2 => st2

/-- The state after `k` iterations of the selection loop. -/
def step_iter (cfg : plan_cfg) : Nat → loop_state → loop_state
  | 0, st => st
  | k + 1, st => step_iter cfg k (step_once cfg st)

/-- The master invariant of the selection loop: structural health of the data
structures (heap membership, bounds, positivity, duplicate-freeness), the
counting relation between node- and shard-level tablet counts, and the
properties of every migration emitted so far. -/
structure good_state (cfg : plan_cfg) (st : loop_state) : Prop where
  keys_nodup : (st.nodes.map Prod.fst).Nodup
  target_in : (lookupN st.nodes cfg.target).isSome = true
  heap_mem : ∀ h ∈ st.nodes_by_load, (lookupN st.nodes h).isSome = true
  shard_heap_bound : ∀ p ∈ st.nodes, ∀ sh ∈ p.2.shards_by_load,
    sh < p.2.shards.length ∧ 1 ≤ (get_shard p.2.shards sh).tablet_count
  shard_heap_nodup : ∀ p ∈ st.nodes, p.2.shards_by_load.Nodup
  cand_nodup : ∀ p ∈ st.nodes, ∀ sl ∈ p.2.shards, sl.candidates.Nodup
  count_inv : ∀ p ∈ st.nodes,
    (p.1 ≠ cfg.target → p.2.tablet_count = sum_shard_tc p.2.shards) ∧
    (p.1 = cfg.target → p.2.tablet_count = sum_shard_tc p.2.shards + st.plan.length)
  plan_dst : ∀ m ∈ st.plan, m.dst.host = cfg.target ∧
    ∀ r ∈ (tablet_info_of cfg.snap m.tablet).replicas, r.host ≠ cfg.target
  plan_pairs : List.Pairwise
    (fun a b => ¬ (a.tablet = b.tablet ∧ a.src = b.src)) st.plan
  plan_not_cand : ∀ m ∈ st.plan, m.tablet ∉ cand_at st.nodes m.src
  plan_rack : ∀ m ∈ st.plan,
    rack_of cfg.snap m.dst.host ≠ rack_of cfg.snap m.src.host →
    rack_count (rack_load_of cfg.snap cfg.dc m.tablet) (rack_of cfg.snap m.dst.host) + 1
      ≤ max_rack_load (rack_load_of cfg.snap cfg.dc m.tablet)
  trace_ok : ∀ e ∈ st.trace, 1 ≤ e.src_tc ∧
    load_le (get_avg_load (e.tgt_tc + 1) e.tgt_sc) (get_avg_load (e.src_tc - 1) e.src_sc)
  plan_len : st.plan.length ≤ cfg.batch_size

/-- The combined effect of the emission bookkeeping on the source node. -/
def emit_src_fn (srcNl : node_load) (src_shard : Nat) (rest_shards : List Nat) :
    node_load → node_load :=
  fun nl =>
    { nl with
      tablet_count := nl.tablet_count - 1,
      shards := set_shard nl.shards src_shard (fun sl =>
        { tablet_count := sl.tablet_count - 1,
          candidates := sl.candidates.drop 1 }),
      shards_by_load :=
        if (get_shard srcNl.shards src_shard).tablet_count - 1 = 0
        then rest_shards else rest_shards ++ [src_shard] }

/-- The emission trace of a planning call (ghost record of the counters read at
each emission; empty when the planner fails or returns an early empty plan). -/
def trace_of (s : snapshot) (dc : Nat) : List emit_rec :=
  match make_plan_full s dc with
  | .ok (some st) => st.trace
  | _ => []

/-- The target node selected by a planning call (0 when none is selected). -/
def target_of (s : snapshot) (dc : Nat) : Nat :=
  match init_of s dc with
  | .ok (some (cfg, _)) => cfg.target
  | _ => 0

/-- The node map as it stands after `k` iterations of the selection loop
(empty when the planner fails or returns an early empty plan). -/
def nodes_after (s : snapshot) (dc k : Nat) : List (Nat × node_load) :=
  match init_of s dc with
  | .ok (some (cfg, st0)) => (step_iter cfg k st0).nodes
  | _ => []

/-- The partial plan accumulated after `k` iterations of the selection loop. -/
def plan_after (s : snapshot) (dc k : Nat) : List tablet_migration_info :=
  match init_of s dc with
  | .ok (some (cfg, st0)) => (step_iter cfg k st0).plan
  | _ => []

/-! ## Concrete snapshots used as witnesses and counterexamples -/

/-- Three one-DC nodes; tablet 0 has replicas on both overloaded nodes 0
and 1, so both can offer it to the underloaded node 2. -/
def ex2 : snapshot :=
  { nodes_list := [⟨0, 7, 3, true, 1⟩, ⟨1, 7, 3, true, 1⟩, ⟨2, 7, 3, true, 2⟩],
    tables := [(0, { tablets := [
      (0, ⟨[⟨0, 0⟩, ⟨1, 0⟩]⟩),
      (1, ⟨[⟨0, 0⟩]⟩),
      (2, ⟨[⟨0, 0⟩]⟩),
      (3, ⟨[⟨1, 0⟩]⟩)], transitions := [] })] }

/-- Two nodes in different racks; both tablets sit on node 0, so the emitted
move crosses racks. -/
def ex4 : snapshot :=
  { nodes_list := [⟨0, 7, 1, true, 1⟩, ⟨1, 7, 2, true, 2⟩],
    tables := [(0, { tablets := [(0, ⟨[⟨0, 0⟩]⟩), (1, ⟨[⟨0, 0⟩]⟩)], transitions := [] })] }

/-- Two two-shard nodes; all four tablets sit on node 0, so node 1 is the
target of two migrations. -/
def ex5 : snapshot :=
  { nodes_list := [⟨0, 7, 3, true, 2⟩, ⟨1, 7, 3, true, 2⟩],
    tables := [(0, { tablets := [
      (0, ⟨[⟨0, 0⟩]⟩),
      (1, ⟨[⟨0, 0⟩]⟩),
      (2, ⟨[⟨0, 1⟩]⟩),
      (3, ⟨[⟨0, 1⟩]⟩)], transitions := [] })] }

/-- Two nodes with identical loads (two tablets each over two shards). -/
def exBal : snapshot :=
  { nodes_list := [⟨0, 7, 3, true, 2⟩, ⟨1, 7, 3, true, 2⟩],
    tables := [(0, { tablets := [
      (0, ⟨[⟨0, 0⟩]⟩),
      (1, ⟨[⟨0, 1⟩]⟩),
      (2, ⟨[⟨1, 0⟩]⟩),
      (3, ⟨[⟨1, 1⟩]⟩)], transitions := [] })] }

/-- The unbalanced snapshot `ex5` with a pending transition on its table. -/
def exTr : snapshot :=
  { nodes_list := [⟨0, 7, 3, true, 2⟩, ⟨1, 7, 3, true, 2⟩],
    tables := [(0, { tablets := [
      (0, ⟨[⟨0, 0⟩]⟩),
      (1, ⟨[⟨0, 0⟩]⟩),
      (2, ⟨[⟨0, 1⟩]⟩),
      (3, ⟨[⟨0, 1⟩]⟩)], transitions := [5] })] }

/-- A single normal in-DC node with `shard_count = 0` and no tablets. -/
def exZ : snapshot :=
  { nodes_list := [⟨0, 7, 3, true, 0⟩],
    tables := [] }

/-! ## Basic lemmas about the container models -/

theorem pop_max_by_none {α : Type} (lt : α → α → Bool) (l : List α)
    (h : pop_max_by lt l = none) : l = [] := by
  cases l with
  | nil => rfl
  | cons a as =>
    rw [pop_max_by] at h
    cases hm : pop_max_by lt as with
    | none => rw [hm] at h; simp at h
    | some p => rw [hm] at h; obtain ⟨m, r⟩ := p; by_cases hlt : lt a m <;> simp [hlt] at h

theorem pop_max_by_decomp {α : Type} (lt : α → α → Bool) :
    ∀ (l : List α) (x : α) (rest : List α), pop_max_by lt l = some (x, rest) →
      ∃ l1 l2, l = l1 ++ x :: l2 ∧ rest = l1 ++ l2 := by
  intro l
  induction l with
  | nil => intro x rest h; simp [pop_max_by] at h
  | cons a as ih =>
    intro x rest h
    rw [pop_max_by] at h
    cases hm : pop_max_by lt as with
    | none =>
      have has : as = [] := pop_max_by_none lt as hm
      rw [hm] at h
      simp only [Option.some.injEq, Prod.mk.injEq] at h
      exact ⟨[], [], by simp [h.1, has], by simp [h.2]⟩
    | some p =>
      obtain ⟨m, r⟩ := p
      rw [hm] at h
      by_cases hlt : lt a m = true
      · simp only [hlt, if_true, Option.some.injEq, Prod.mk.injEq] at h
        obtain ⟨l1, l2, he, hr⟩ := ih m r hm
        refine ⟨a :: l1, l2, ?_, ?_⟩
        · simp [he, h.1]
        · simp [← h.2, hr]
      · simp only [hlt, Bool.false_eq_true, if_false, Option.some.injEq, Prod.mk.injEq] at h
        exact ⟨[], as, by simp [h.1], by simp [h.2]⟩

theorem pop_max_by_mem {α : Type} {lt : α → α → Bool} {l : List α} {x : α} {rest : List α}
    (h : pop_max_by lt l = some (x, rest)) : x ∈ l := by
  obtain ⟨l1, l2, he, _⟩ := pop_max_by_decomp lt l x rest h
  simp [he]

theorem pop_max_by_length {α : Type} {lt : α → α → Bool} {l : List α} {x : α} {rest : List α}
    (h : pop_max_by lt l = some (x, rest)) : rest.length + 1 = l.length := by
  obtain ⟨l1, l2, he, hr⟩ := pop_max_by_decomp lt l x rest h
  simp [he, hr]; omega

theorem pop_max_by_subset {α : Type} {lt : α → α → Bool} {l : List α} {x : α} {rest : List α}
    (h : pop_max_by lt l = some (x, rest)) : ∀ y ∈ rest, y ∈ l := by
  obtain ⟨l1, l2, he, hr⟩ := pop_max_by_decomp lt l x rest h
  intro y hy
  subst he hr
  simp at hy ⊢
  tauto

theorem pop_max_by_nodup {α : Type} {lt : α → α → Bool} {l : List α} {x : α} {rest : List α}
    (h : pop_max_by lt l = some (x, rest)) (hl : l.Nodup) : rest.Nodup ∧ x ∉ rest := by
  obtain ⟨l1, l2, he, hr⟩ := pop_max_by_decomp lt l x rest h
  subst he hr
  rw [List.nodup_middle, List.nodup_cons] at hl
  exact ⟨hl.2, hl.1⟩

theorem lookupN_isSome_of_mem_keys {l : List (Nat × node_load)} {h : Nat}
    (hm : h ∈ l.map Prod.fst) : (lookupN l h).isSome = true := by
  induction l with
  | nil => simp at hm
  | cons p rest ih =>
    rw [lookupN]
    by_cases he : p.1 = h
    · simp [he]
    · simp only [List.map_cons, List.mem_cons] at hm
      rcases hm with hm | hm
      · exact absurd hm.symm he
      · simp [he, ih hm]

theorem mem_of_lookupN : ∀ {l : List (Nat × node_load)} {h : Nat} {v : node_load},
    lookupN l h = some v → (h, v) ∈ l := by
  intro l
  induction l with
  | nil => intro h v hv; simp [lookupN] at hv
  | cons p rest ih =>
    intro h v hv
    rw [lookupN] at hv
    by_cases he : p.1 = h
    · rw [if_pos he] at hv
      injection hv with hv2
      exact List.mem_cons.mpr (Or.inl (by rw [← he, ← hv2]))
    · rw [if_neg he] at hv
      exact List.mem_cons_of_mem _ (ih hv)

theorem keys_updateN (l : List (Nat × node_load)) (h : Nat) (f : node_load → node_load) :
    (updateN l h f).map Prod.fst = l.map Prod.fst := by
  induction l with
  | nil => rfl
  | cons p rest ih =>
    rw [updateN]
    by_cases he : p.1 = h <;> simp [he, ih]

theorem lookupN_updateN_self {l : List (Nat × node_load)} {h : Nat} {v : node_load}
    (f : node_load → node_load) (hv : lookupN l h = some v) :
    lookupN (updateN l h f) h = some (f v) := by
  induction l with
  | nil => simp [lookupN] at hv
  | cons p rest ih =>
    rw [lookupN] at hv
    rw [updateN]
    by_cases he : p.1 = h
    · rw [if_pos he] at hv
      injection hv with hv2
      rw [if_pos he, lookupN, if_pos he, hv2]
    · rw [if_neg he] at hv
      rw [if_neg he, lookupN, if_neg he]
      exact ih hv

theorem lookupN_updateN_of_ne {l : List (Nat × node_load)} {h h2 : Nat}
    (f : node_load → node_load) (hne : h2 ≠ h) :
    lookupN (updateN l h f) h2 = lookupN l h2 := by
  induction l with
  | nil => rfl
  | cons p rest ih =>
    rw [updateN]
    by_cases he : p.1 = h
    · have hne2 : p.1 ≠ h2 := fun hh => hne (by rw [← hh]; exact he)
      rw [if_pos he, lookupN, lookupN, if_neg hne2, if_neg hne2]
    · rw [if_neg he, lookupN, lookupN]
      by_cases he2 : p.1 = h2
      · rw [if_pos he2, if_pos he2]
      · rw [if_neg he2, if_neg he2, ih]

theorem updateN_of_lookupN_none {l : List (Nat × node_load)} {h : Nat}
    (f : node_load → node_load) (hv : lookupN l h = none) : updateN l h f = l := by
  induction l with
  | nil => rfl
  | cons p rest ih =>
    rw [lookupN] at hv
    by_cases he : p.1 = h
    · rw [if_pos he] at hv; simp at hv
    · rw [if_neg he] at hv
      rw [updateN, if_neg he, ih hv]

theorem mem_updateN {l : List (Nat × node_load)} {h : Nat} {f : node_load → node_load}
    {p : Nat × node_load} (hp : p ∈ updateN l h f) :
    p ∈ l ∨ ∃ v, lookupN l h = some v ∧ p = (h, f v) := by
  induction l with
  | nil => simp [updateN] at hp
  | cons q rest ih =>
    rw [updateN] at hp
    by_cases he : q.1 = h
    · rw [if_pos he] at hp
      rcases List.mem_cons.mp hp with hp1 | hp1
      · right
        exact ⟨q.2, by rw [lookupN, if_pos he], by rw [hp1, he]⟩
      · exact Or.inl (List.mem_cons_of_mem _ hp1)
    · rw [if_neg he] at hp
      rcases List.mem_cons.mp hp with hp1 | hp1
      · exact Or.inl (by simp [hp1])
      · rcases ih hp1 with hq | ⟨v, hv1, hv2⟩
        · exact Or.inl (List.mem_cons_of_mem _ hq)
        · exact Or.inr ⟨v, by rw [lookupN, if_neg he]; exact hv1, hv2⟩

theorem nodes_measure_updateN {l : List (Nat × node_load)} {h : Nat} {v : node_load}
    (f : node_load → node_load) (hv : lookupN l h = some v) :
    nodes_measure (updateN l h f) + node_measure v
      = nodes_measure l + node_measure (f v) := by
  induction l with
  | nil => simp [lookupN] at hv
  | cons p rest ih =>
    rw [lookupN] at hv
    rw [updateN]
    by_cases he : p.1 = h
    · rw [if_pos he] at hv
      injection hv with hv2
      rw [if_pos he]
      simp only [nodes_measure]
      simp only [hv2]
      omega
    · rw [if_neg he] at hv
      rw [if_neg he, nodes_measure, nodes_measure]
      have := ih hv
      omega

theorem get_shard_oob : ∀ {l : List shard_load} {i : Nat}, l.length ≤ i →
    get_shard l i = empty_shard := by
  intro l
  induction l with
  | nil => intro i _; cases i <;> rfl
  | cons x xs ih =>
    intro i hi
    cases i with
    | zero => simp at hi
    | succ n => exact ih (by simpa using hi)

theorem set_shard_oob : ∀ {l : List shard_load} {i : Nat} (f : shard_load → shard_load),
    l.length ≤ i → set_shard l i f = l := by
  intro l
  induction l with
  | nil => intro i f _; rfl
  | cons x xs ih =>
    intro i f hi
    cases i with
    | zero => simp at hi
    | succ n => rw [set_shard]; rw [ih f (by simpa using hi)]

theorem set_shard_length : ∀ (l : List shard_load) (i : Nat) (f : shard_load → shard_load),
    (set_shard l i f).length = l.length := by
  intro l
  induction l with
  | nil => intro i f; rfl
  | cons x xs ih =>
    intro i f
    cases i with
    | zero => rfl
    | succ n => simp [set_shard, ih]

theorem get_set_shard_self : ∀ {l : List shard_load} {i : Nat} (f : shard_load → shard_load),
    i < l.length → get_shard (set_shard l i f) i = f (get_shard l i) := by
  intro l
  induction l with
  | nil => intro i f hi; simp at hi
  | cons x xs ih =>
    intro i f hi
    cases i with
    | zero => rfl
    | succ n => exact ih f (by simpa using hi)

theorem get_set_shard_of_ne : ∀ {l : List shard_load} {i j : Nat} (f : shard_load → shard_load),
    j ≠ i → get_shard (set_shard l i f) j = get_shard l j := by
  intro l
  induction l with
  | nil => intro i j f _; rfl
  | cons x xs ih =>
    intro i j f hne
    cases i with
    | zero =>
      cases j with
      | zero => exact absurd rfl hne
      | succ m => rfl
    | succ n =>
      cases j with
      | zero => rfl
      | succ m => exact ih f (by omega)

theorem sum_shard_tc_set : ∀ {l : List shard_load} {i : Nat} (f : shard_load → shard_load),
    i < l.length →
    sum_shard_tc (set_shard l i f) + (get_shard l i).tablet_count
      = sum_shard_tc l + (f (get_shard l i)).tablet_count := by
  intro l
  induction l with
  | nil => intro i f hi; simp at hi
  | cons x xs ih =>
    intro i f hi
    cases i with
    | zero => simp [set_shard, get_shard, sum_shard_tc]; omega
    | succ n =>
      simp only [set_shard, get_shard, sum_shard_tc]
      have := ih f (by simpa using hi)
      omega

theorem cand_total_set : ∀ {l : List shard_load} {i : Nat} (f : shard_load → shard_load),
    i < l.length →
    cand_total (set_shard l i f) + (get_shard l i).candidates.length
      = cand_total l + (f (get_shard l i)).candidates.length := by
  intro l
  induction l with
  | nil => intro i f hi; simp at hi
  | cons x xs ih =>
    intro i f hi
    cases i with
    | zero => simp [set_shard, get_shard, cand_total]; omega
    | succ n =>
      simp only [set_shard, get_shard, cand_total]
      have := ih f (by simpa using hi)
      omega

theorem mem_set_shard : ∀ {l : List shard_load} {i : Nat} {f : shard_load → shard_load}
    {sl : shard_load}, sl ∈ set_shard l i f → sl ∈ l ∨ sl = f (get_shard l i) := by
  intro l
  induction l with
  | nil => intro i f sl hm; simp [set_shard] at hm
  | cons x xs ih =>
    intro i f sl hm
    cases i with
    | zero =>
      rcases List.mem_cons.mp hm with hm1 | hm1
      · exact Or.inr hm1
      · exact Or.inl (List.mem_cons_of_mem _ hm1)
    | succ n =>
      rcases List.mem_cons.mp hm with hm1 | hm1
      · exact Or.inl (by simp [hm1])
      · rcases ih hm1 with hq | hq
        · exact Or.inl (List.mem_cons_of_mem _ hq)
        · exact Or.inr hq

theorem get_shard_mem : ∀ {l : List shard_load} {i : Nat}, i < l.length →
    get_shard l i ∈ l := by
  intro l
  induction l with
  | nil => intro i hi; simp at hi
  | cons x xs ih =>
    intro i hi
    cases i with
    | zero => exact List.mem_cons_self _ _
    | succ n => exact List.mem_cons_of_mem _ (ih (by simpa using hi))

theorem get_shard_tc_le_sum : ∀ {l : List shard_load} {i : Nat}, i < l.length →
    (get_shard l i).tablet_count ≤ sum_shard_tc l := by
  intro l
  induction l with
  | nil => intro i hi; simp at hi
  | cons x xs ih =>
    intro i hi
    cases i with
    | zero => simp [get_shard, sum_shard_tc]
    | succ n =>
      have := ih (by simpa using hi)
      simp only [get_shard, sum_shard_tc]
      omega

/-! ## Invariant preservation helpers -/

theorem lookupN_updateN_isSome {l : List (Nat × node_load)} {h h2 : Nat}
    (f : node_load → node_load) (hs : (lookupN l h2).isSome = true) :
    (lookupN (updateN l h f) h2).isSome = true := by
  by_cases he : h2 = h
  · subst he
    cases hv : lookupN l h2 with
    | none => rw [hv] at hs; simp at hs
    | some v => rw [lookupN_updateN_self f hv]; rfl
  · rw [lookupN_updateN_of_ne f he]; exact hs

theorem get_set_cand_subset {l : List shard_load} {ss : Nat} {f2 : shard_load → shard_load}
    (hf2 : ∀ sl, (f2 sl).candidates ⊆ sl.candidates) (i : Nat) :
    (get_shard (set_shard l ss f2) i).candidates ⊆ (get_shard l i).candidates := by
  by_cases hr : ss < l.length
  · by_cases hi : i = ss
    · subst hi
      rw [get_set_shard_self _ hr]
      exact hf2 _
    · rw [get_set_shard_of_ne _ hi]
      exact fun x hx => hx
  · rw [set_shard_oob _ (le_of_not_lt hr)]
    exact fun x hx => hx

theorem cand_at_updateN_subset {nodes : List (Nat × node_load)} {h : Nat}
    {f : node_load → node_load}
    (hf : ∀ nl i, (get_shard (f nl).shards i).candidates ⊆ (get_shard nl.shards i).candidates)
    (tr : tablet_replica) (g : global_tablet_id)
    (hg : g ∈ cand_at (updateN nodes h f) tr) : g ∈ cand_at nodes tr := by
  unfold cand_at at hg ⊢
  by_cases he : tr.host = h
  · rw [he] at hg ⊢
    cases hv : lookupN nodes h with
    | none =>
      rw [updateN_of_lookupN_none f hv, hv] at hg
      exact hg
    | some v =>
      rw [lookupN_updateN_self f hv] at hg
      exact hf v tr.shard hg
  · rw [lookupN_updateN_of_ne f he] at hg
    exact hg

theorem nodup_append_singleton {α : Type} {l : List α} {x : α}
    (hl : l.Nodup) (hx : x ∉ l) : (l ++ [x]).Nodup := by
  have : (l ++ x :: ([] : List α)).Nodup := by
    rw [List.nodup_middle, List.nodup_cons]
    simpa using ⟨hx, hl⟩
  simpa using this

/-- Branch: the popped source node has no shard candidates left (lines
324-330): the node is dropped and `max_off_candidate_load` raised. -/
theorem good_drop_node {cfg : plan_cfg} {st : loop_state}
    (g : good_state cfg st) {src_host : Nat} {rest_nodes : List Nat} (mo : load_t)
    (hpop : pop_max_by (fun a b => decide (load_lt (avg_of st.nodes a) (avg_of st.nodes b)))
       st.nodes_by_load = some (src_host, rest_nodes)) :
    good_state cfg { st with max_off_candidate_load := mo, nodes_by_load := rest_nodes } ∧
    state_measure { st with max_off_candidate_load := mo, nodes_by_load := rest_nodes }
      < state_measure st := by
  constructor
  · exact { g with
      heap_mem := fun h hh => g.heap_mem h (pop_max_by_subset hpop h hh) }
  · have := pop_max_by_length hpop
    simp only [state_measure]
    omega

/-- Branch: the popped shard has no candidates left (lines 339-343): the shard
is dropped from the node's heap and the node re-pushed. -/
theorem good_drop_shard {cfg : plan_cfg} {st : loop_state}
    (g : good_state cfg st) {src_host src_shard : Nat}
    {rest_nodes rest_shards : List Nat} {srcNl : node_load}
    {lt2 : Nat → Nat → Bool}
    (hpop1 : pop_max_by (fun a b => decide (load_lt (avg_of st.nodes a) (avg_of st.nodes b)))
       st.nodes_by_load = some (src_host, rest_nodes))
    (hlook : lookupN st.nodes src_host = some srcNl)
    (hpop2 : pop_max_by lt2 srcNl.shards_by_load = some (src_shard, rest_shards)) :
    good_state cfg { st with
      nodes := updateN st.nodes src_host (fun nl => { nl with shards_by_load := rest_shards }),
      nodes_by_load := rest_nodes ++ [src_host] } ∧
    state_measure { st with
      nodes := updateN st.nodes src_host (fun nl => { nl with shards_by_load := rest_shards }),
      nodes_by_load := rest_nodes ++ [src_host] } < state_measure st := by
  have hmemsrc : (src_host, srcNl) ∈ st.nodes := mem_of_lookupN hlook
  have hrs_sub : ∀ y ∈ rest_shards, y ∈ srcNl.shards_by_load := pop_max_by_subset hpop2
  have hrs_nodup := pop_max_by_nodup hpop2 (g.shard_heap_nodup _ hmemsrc)
  constructor
  · refine ⟨?_, ?_, ?_, ?_, ?_, ?_, ?_, ?_, ?_, ?_, ?_, ?_, ?_⟩
    · show ((updateN st.nodes src_host _).map Prod.fst).Nodup
      rw [keys_updateN]
      exact g.keys_nodup
    · exact lookupN_updateN_isSome _ g.target_in
    · intro h hh
      rcases List.mem_append.mp hh with hh1 | hh1
      · exact lookupN_updateN_isSome _ (g.heap_mem h (pop_max_by_subset hpop1 h hh1))
      · have : h = src_host := by simpa using hh1
        subst this
        exact lookupN_updateN_isSome _ (by rw [hlook]; rfl)
    · intro p hp sh hsh
      rcases mem_updateN hp with hp1 | ⟨v, hv1, hv2⟩
      · exact g.shard_heap_bound p hp1 sh hsh
      · rw [hlook] at hv1
        injection hv1 with hv1
        subst hv1 hv2
        exact g.shard_heap_bound (src_host, srcNl) hmemsrc sh (hrs_sub sh hsh)
    · intro p hp
      rcases mem_updateN hp with hp1 | ⟨v, hv1, hv2⟩
      · exact g.shard_heap_nodup p hp1
      · rw [hlook] at hv1
        injection hv1 with hv1
        subst hv1 hv2
        exact hrs_nodup.1
    · intro p hp
      rcases mem_updateN hp with hp1 | ⟨v, hv1, hv2⟩
      · exact g.cand_nodup p hp1
      · rw [hlook] at hv1
        injection hv1 with hv1
        subst hv1 hv2
        exact g.cand_nodup (src_host, srcNl) hmemsrc
    · intro p hp
      rcases mem_updateN hp with hp1 | ⟨v, hv1, hv2⟩
      · exact g.count_inv p hp1
      · rw [hlook] at hv1
        injection hv1 with hv1
        subst hv1 hv2
        exact g.count_inv (src_host, srcNl) hmemsrc
    · exact g.plan_dst
    · exact g.plan_pairs
    · intro m hm
      intro hcand
      exact g.plan_not_cand m hm
        (cand_at_updateN_subset (fun nl i => by exact fun x hx => hx) _ _ hcand)
    · exact g.plan_rack
    · exact g.trace_ok
    · exact g.plan_len
  · have hlen1 := pop_max_by_length hpop1
    have hlen2 := pop_max_by_length hpop2
    have hmeq := nodes_measure_updateN
      (fun nl => { nl with shards_by_load := rest_shards }) hlook
    simp only [state_measure]
    simp only [node_measure] at hmeq
    simp only [List.length_append, List.length_cons, List.length_nil]
    omega

theorem updateN_updateN (l : List (Nat × node_load)) (h : Nat)
    (f g2 : node_load → node_load) :
    updateN (updateN l h g2) h f = updateN l h (fun v => f (g2 v)) := by
  induction l with
  | nil => rfl
  | cons p rest ih =>
    by_cases he : p.1 = h
    · simp [updateN, he]
    · simp [updateN, he, ih]

theorem updateN_comm (l : List (Nat × node_load)) {h1 h2 : Nat}
    (f1 f2 : node_load → node_load) (hne : h1 ≠ h2) :
    updateN (updateN l h1 f1) h2 f2 = updateN (updateN l h2 f2) h1 f1 := by
  induction l with
  | nil => rfl
  | cons p rest ih =>
    by_cases he1 : p.1 = h1
    · have he2 : ¬ p.1 = h2 := by rw [he1]; exact hne
      rw [updateN, if_pos he1, updateN, if_neg he2, updateN, if_neg he2,
        updateN, if_pos he1]
    · rw [updateN, if_neg he1]
      by_cases he2 : p.1 = h2
      · rw [updateN, if_pos he2, updateN, if_pos he2, updateN, if_neg he1]
      · rw [updateN, if_neg he2, updateN, if_neg he2, updateN, if_neg he1, ih]

theorem lookupN_of_mem_nodup : ∀ {l : List (Nat × node_load)} {h : Nat} {v : node_load},
    (l.map Prod.fst).Nodup → (h, v) ∈ l → lookupN l h = some v := by
  intro l
  induction l with
  | nil => intro h v _ hm; simp at hm
  | cons p rest ih =>
    intro h v hnd hm
    rw [List.map_cons, List.nodup_cons] at hnd
    rcases List.mem_cons.mp hm with hm1 | hm1
    · rw [lookupN, ← hm1]
      simp
    · have hne : p.1 ≠ h := by
        intro he
        exact hnd.1 (he ▸ (List.mem_map.mpr ⟨(h, v), hm1, rfl⟩))
      rw [lookupN, if_neg hne]
      exact ih hnd.2 hm1

theorem mem_updateN_nodup : ∀ {l : List (Nat × node_load)} {h : Nat} {v : node_load}
    {f : node_load → node_load} {p : Nat × node_load},
    (l.map Prod.fst).Nodup → lookupN l h = some v →
    p ∈ updateN l h f → (p ∈ l ∧ p.1 ≠ h) ∨ p = (h, f v) := by
  intro l
  induction l with
  | nil => intro h v f p _ hv _; simp [lookupN] at hv
  | cons q rest ih =>
    intro h v f p hnd hv hp
    rw [List.map_cons, List.nodup_cons] at hnd
    rw [lookupN] at hv
    rw [updateN] at hp
    by_cases he : q.1 = h
    · rw [if_pos he] at hv hp
      injection hv with hv
      rcases List.mem_cons.mp hp with hp1 | hp1
      · right
        rw [hp1, he, hv]
      · left
        refine ⟨List.mem_cons_of_mem _ hp1, ?_⟩
        intro hph
        exact hnd.1 (by rw [he, ← hph]; exact List.mem_map.mpr ⟨p, hp1, rfl⟩)
    · rw [if_neg he] at hv hp
      rcases List.mem_cons.mp hp with hp1 | hp1
      · left
        refine ⟨by rw [hp1]; exact List.mem_cons_self _ _, ?_⟩
        rw [hp1]
        exact he
      · rcases ih hnd.2 hv hp1 with ⟨hm, hne⟩ | heq
        · exact Or.inl ⟨List.mem_cons_of_mem _ hm, hne⟩
        · exact Or.inr heq

theorem set_shard_set_shard (l : List shard_load) (i : Nat)
    (f g2 : shard_load → shard_load) :
    set_shard (set_shard l i g2) i f = set_shard l i (fun sl => f (g2 sl)) := by
  induction l generalizing i with
  | nil => rfl
  | cons x xs ih =>
    cases i with
    | zero => rfl
    | succ n => simp [set_shard, ih]

/-- Tablet counts are untouched by the candidate-erasure update. -/
theorem get_set_tc_eq {l : List shard_load} {ss : Nat} {f2 : shard_load → shard_load}
    (hf2 : ∀ sl, (f2 sl).tablet_count = sl.tablet_count) (i : Nat) :
    (get_shard (set_shard l ss f2) i).tablet_count = (get_shard l i).tablet_count := by
  by_cases hr : ss < l.length
  · by_cases hi : i = ss
    · subst hi
      rw [get_set_shard_self _ hr, hf2]
    · rw [get_set_shard_of_ne _ hi]
  · rw [set_shard_oob _ (le_of_not_lt hr)]

theorem sum_shard_tc_set_eq {l : List shard_load} {ss : Nat} {f2 : shard_load → shard_load}
    (hf2 : ∀ sl, (f2 sl).tablet_count = sl.tablet_count) :
    sum_shard_tc (set_shard l ss f2) = sum_shard_tc l := by
  by_cases hr : ss < l.length
  · have := sum_shard_tc_set f2 hr
    rw [hf2] at this
    omega
  · rw [set_shard_oob _ (le_of_not_lt hr)]

/-- Branch: the picked candidate is skipped by a collocation check (lines
370-385): the head candidate is erased, shard and node re-pushed. -/
theorem good_skip_candidate {cfg : plan_cfg} {st : loop_state}
    (g : good_state cfg st) {src_host src_shard : Nat}
    {rest_nodes rest_shards : List Nat} {srcNl : node_load}
    {source_tablet : global_tablet_id} {rest_cands : List global_tablet_id}
    {lt2 : Nat → Nat → Bool}
    (hpop1 : pop_max_by (fun a b => decide (load_lt (avg_of st.nodes a) (avg_of st.nodes b)))
       st.nodes_by_load = some (src_host, rest_nodes))
    (hlook : lookupN st.nodes src_host = some srcNl)
    (hpop2 : pop_max_by lt2 srcNl.shards_by_load = some (src_shard, rest_shards))
    (hcand : (get_shard srcNl.shards src_shard).candidates = source_tablet :: rest_cands) :
    good_state cfg { st with
      nodes := erase_cand_nodes st.nodes src_host src_shard rest_shards,
      nodes_by_load := rest_nodes ++ [src_host] } ∧
    state_measure { st with
      nodes := erase_cand_nodes st.nodes src_host src_shard rest_shards,
      nodes_by_load := rest_nodes ++ [src_host] } < state_measure st := by
  have hmemsrc : (src_host, srcNl) ∈ st.nodes := mem_of_lookupN hlook
  have hrs_sub : ∀ y ∈ rest_shards, y ∈ srcNl.shards_by_load := pop_max_by_subset hpop2
  have hrs_nodup := pop_max_by_nodup hpop2 (g.shard_heap_nodup _ hmemsrc)
  have hsmem : src_shard ∈ srcNl.shards_by_load := pop_max_by_mem hpop2
  have hrange : src_shard < srcNl.shards.length := by
    by_contra hcon
    rw [get_shard_oob (le_of_not_lt hcon)] at hcand
    simp [empty_shard] at hcand
  have hdropsub : ∀ sl : shard_load,
      ({ sl with candidates := sl.candidates.drop 1 } : shard_load).candidates ⊆ sl.candidates :=
    fun sl => List.drop_subset 1 sl.candidates
  have htc_eq : ∀ sl : shard_load,
      ({ sl with candidates := sl.candidates.drop 1 } : shard_load).tablet_count
        = sl.tablet_count := fun sl => rfl
  unfold erase_cand_nodes
  constructor
  · refine ⟨?_, ?_, ?_, ?_, ?_, ?_, ?_, ?_, ?_, ?_, ?_, ?_, ?_⟩
    · show ((updateN st.nodes src_host _).map Prod.fst).Nodup
      rw [keys_updateN]
      exact g.keys_nodup
    · exact lookupN_updateN_isSome _ g.target_in
    · intro h hh
      rcases List.mem_append.mp hh with hh1 | hh1
      · exact lookupN_updateN_isSome _ (g.heap_mem h (pop_max_by_subset hpop1 h hh1))
      · have : h = src_host := by simpa using hh1
        subst this
        exact lookupN_updateN_isSome _ (by rw [hlook]; rfl)
    · intro p hp sh hsh
      rcases mem_updateN hp with hp1 | ⟨v, hv1, hv2⟩
      · exact g.shard_heap_bound p hp1 sh hsh
      · rw [hlook] at hv1
        injection hv1 with hv1
        subst hv1 hv2
        simp only at hsh ⊢
        have hold : sh ∈ srcNl.shards_by_load := by
          rcases List.mem_append.mp hsh with hh1 | hh1
          · exact hrs_sub sh hh1
          · have : sh = src_shard := by simpa using hh1
            subst this
            exact hsmem
        have hb := g.shard_heap_bound (src_host, srcNl) hmemsrc sh hold
        rw [set_shard_length, get_set_tc_eq htc_eq]
        exact hb
    · intro p hp
      rcases mem_updateN hp with hp1 | ⟨v, hv1, hv2⟩
      · exact g.shard_heap_nodup p hp1
      · rw [hlook] at hv1
        injection hv1 with hv1
        subst hv1 hv2
        exact nodup_append_singleton hrs_nodup.1 hrs_nodup.2
    · intro p hp sl hsl
      rcases mem_updateN hp with hp1 | ⟨v, hv1, hv2⟩
      · exact g.cand_nodup p hp1 sl hsl
      · rw [hlook] at hv1
        injection hv1 with hv1
        subst hv1 hv2
        simp only at hsl
        rcases mem_set_shard hsl with hm1 | hm1
        · exact g.cand_nodup (src_host, srcNl) hmemsrc sl hm1
        · rw [hm1]
          exact (List.drop_sublist 1 _).nodup
            (g.cand_nodup (src_host, srcNl) hmemsrc _ (get_shard_mem hrange))
    · intro p hp
      rcases mem_updateN hp with hp1 | ⟨v, hv1, hv2⟩
      · exact g.count_inv p hp1
      · rw [hlook] at hv1
        injection hv1 with hv1
        subst hv1 hv2
        have hc := g.count_inv (src_host, srcNl) hmemsrc
        simp only at hc ⊢
        rw [sum_shard_tc_set_eq htc_eq]
        exact hc
    · exact g.plan_dst
    · exact g.plan_pairs
    · intro m hm hcand2
      exact g.plan_not_cand m hm
        (cand_at_updateN_subset
          (fun nl i => get_set_cand_subset hdropsub i) _ _ hcand2)
    · exact g.plan_rack
    · exact g.trace_ok
    · exact g.plan_len
  · have hlen1 := pop_max_by_length hpop1
    have hlen2 := pop_max_by_length hpop2
    have hctot := cand_total_set
      (fun sl => { sl with candidates := sl.candidates.drop 1 }) hrange
    simp only [hcand, List.drop_succ_cons, List.drop_zero, List.length_cons] at hctot
    have hmeq := nodes_measure_updateN
      (fun nl => { nl with
        shards_by_load := rest_shards ++ [src_shard],
        shards := set_shard nl.shards src_shard (fun sl =>
          { sl with candidates := sl.candidates.drop 1 }) }) hlook
    simp only [node_measure, List.length_append, List.length_cons, List.length_nil] at hmeq
    simp only [state_measure, List.length_append, List.length_cons, List.length_nil]
    omega

theorem load_le_refl (a : load_t) : load_le a a := le_refl _

theorem load_le_of_not_lt {a b : load_t} (h : ¬ load_lt a b) : load_le b a := by
  unfold load_lt at h
  unfold load_le
  omega

/-- `emit_state` in normal form: one update of the source node, one of the
target (they are distinct in every reachable emission, see `good_emit`). -/
theorem emit_state_spec {cfg : plan_cfg} {st : loop_state}
    {src_host src_shard : Nat} {rest_nodes rest_shards : List Nat}
    {srcNl tgtNl : node_load} {source_tablet : global_tablet_id}
    (hlook : lookupN st.nodes src_host = some srcNl)
    (hne : src_host ≠ cfg.target)
    (hrange : src_shard < srcNl.shards.length) :
    emit_state cfg st src_host src_shard rest_nodes rest_shards srcNl tgtNl source_tablet
      = { nodes := updateN (updateN st.nodes src_host (emit_src_fn srcNl src_shard rest_shards))
            cfg.target (fun nl => { nl with tablet_count := nl.tablet_count + 1 }),
          nodes_by_load :=
            if srcNl.tablet_count - 1 = 0 then rest_nodes else rest_nodes ++ [src_host],
          max_off_candidate_load := st.max_off_candidate_load,
          sketch := (next_shard st.sketch).2,
          plan := st.plan ++
            [⟨source_tablet, ⟨src_host, src_shard⟩, ⟨cfg.target, (next_shard st.sketch).1⟩⟩],
          trace := st.trace ++
            [⟨⟨source_tablet, ⟨src_host, src_shard⟩, ⟨cfg.target, (next_shard st.sketch).1⟩⟩,
              srcNl.tablet_count, srcNl.shard_count, tgtNl.tablet_count, tgtNl.shard_count⟩] } := by
  have e1 : lookupN (erase_cand_nodes st.nodes src_host src_shard rest_shards) src_host
      = some { srcNl with
          shards_by_load := rest_shards ++ [src_shard],
          shards := set_shard srcNl.shards src_shard (fun sl =>
            { sl with candidates := sl.candidates.drop 1 }) } := by
    unfold erase_cand_nodes
    exact lookupN_updateN_self _ hlook
  have e2 : lookupN (updateN (erase_cand_nodes st.nodes src_host src_shard rest_shards)
        cfg.target (fun nl => { nl with tablet_count := nl.tablet_count + 1 })) src_host
      = some { srcNl with
          shards_by_load := rest_shards ++ [src_shard],
          shards := set_shard srcNl.shards src_shard (fun sl =>
            { sl with candidates := sl.candidates.drop 1 }) } := by
    rw [lookupN_updateN_of_ne _ hne]
    exact e1
  simp only [emit_state]
  simp only [e2, Option.getD_some]
  simp only [get_set_shard_self _ hrange]
  simp only [lookupN_updateN_self _ e2, Option.getD_some]
  congr 1
  unfold erase_cand_nodes
  rw [updateN_updateN, updateN_comm _ _ _ (Ne.symm hne), updateN_updateN]
  refine congrArg (fun x => updateN x cfg.target
    (fun nl => { nl with tablet_count := nl.tablet_count + 1 })) ?_
  refine congrArg (updateN st.nodes src_host) ?_
  funext nl
  simp only [emit_src_fn, set_shard_set_shard]

/-- Branch: a migration is emitted (lines 387-405).  All collocation checks
passed and the loop guards did not fire. -/
theorem good_emit {cfg : plan_cfg} {st : loop_state}
    (g : good_state cfg st) {src_host src_shard : Nat}
    {rest_nodes rest_shards : List Nat} {srcNl tgtNl : node_load}
    {source_tablet : global_tablet_id} {rest_cands : List global_tablet_id}
    {lt2 : Nat → Nat → Bool}
    (hpop1 : pop_max_by (fun a b => decide (load_lt (avg_of st.nodes a) (avg_of st.nodes b)))
       st.nodes_by_load = some (src_host, rest_nodes))
    (hlook : lookupN st.nodes src_host = some srcNl)
    (hlookt : lookupN st.nodes cfg.target = some tgtNl)
    (hpop2 : pop_max_by lt2 srcNl.shards_by_load = some (src_shard, rest_shards))
    (hcand : (get_shard srcNl.shards src_shard).candidates = source_tablet :: rest_cands)
    (hpl : st.plan.length < cfg.batch_size)
    (hg2 : ¬ load_le (get_avg_load srcNl.tablet_count srcNl.shard_count)
       (get_avg_load tgtNl.tablet_count tgtNl.shard_count))
    (hg3 : ¬ load_lt (get_avg_load (srcNl.tablet_count - 1) srcNl.shard_count)
       (get_avg_load (tgtNl.tablet_count + 1) tgtNl.shard_count))
    (hnotgt : (tablet_info_of cfg.snap source_tablet).replicas.any
       (fun r => r.host == cfg.target) = false)
    (hrack : ¬ (¬ (rack_of cfg.snap cfg.target = rack_of cfg.snap src_host) ∧
       max_rack_load (rack_load_of cfg.snap cfg.dc source_tablet) <
         rack_count (rack_load_of cfg.snap cfg.dc source_tablet)
           (rack_of cfg.snap cfg.target) + 1)) :
    good_state cfg (emit_state cfg st src_host src_shard rest_nodes rest_shards
      srcNl tgtNl source_tablet) ∧
    state_measure (emit_state cfg st src_host src_shard rest_nodes rest_shards
      srcNl tgtNl source_tablet) < state_measure st := by
  have hne : src_host ≠ cfg.target := by
    intro heq
    apply hg2
    rw [heq, hlookt] at hlook
    injection hlook with hlook
    rw [hlook]
    exact load_le_refl _
  have hmemsrc : (src_host, srcNl) ∈ st.nodes := mem_of_lookupN hlook
  have hmemtgt : (cfg.target, tgtNl) ∈ st.nodes := mem_of_lookupN hlookt
  have hrange : src_shard < srcNl.shards.length := by
    by_contra hcon
    rw [get_shard_oob (le_of_not_lt hcon)] at hcand
    simp [empty_shard] at hcand
  have hsmem : src_shard ∈ srcNl.shards_by_load := pop_max_by_mem hpop2
  have hbss : src_shard < srcNl.shards.length ∧
      1 ≤ (get_shard srcNl.shards src_shard).tablet_count :=
    g.shard_heap_bound (src_host, srcNl) hmemsrc src_shard hsmem
  have hrs_sub : ∀ y ∈ rest_shards, y ∈ srcNl.shards_by_load := pop_max_by_subset hpop2
  have hrs_nodup := pop_max_by_nodup hpop2 (g.shard_heap_nodup _ hmemsrc)
  have hsrc_count : srcNl.tablet_count = sum_shard_tc srcNl.shards :=
    (g.count_inv (src_host, srcNl) hmemsrc).1 hne
  have htcpos : 1 ≤ srcNl.tablet_count := by
    have := get_shard_tc_le_sum hrange
    omega
  have hcnodup : (source_tablet :: rest_cands).Nodup := by
    rw [← hcand]
    exact g.cand_nodup (src_host, srcNl) hmemsrc _ (get_shard_mem hrange)
  have hl1 : lookupN (updateN st.nodes src_host
      (emit_src_fn srcNl src_shard rest_shards)) cfg.target = some tgtNl := by
    rw [lookupN_updateN_of_ne _ (Ne.symm hne)]
    exact hlookt
  have hk1 : ((updateN st.nodes src_host
      (emit_src_fn srcNl src_shard rest_shards)).map Prod.fst).Nodup := by
    rw [keys_updateN]
    exact g.keys_nodup
  have hclass : ∀ p ∈ updateN (updateN st.nodes src_host
        (emit_src_fn srcNl src_shard rest_shards)) cfg.target
        (fun nl => { nl with tablet_count := nl.tablet_count + 1 }),
      (p ∈ st.nodes ∧ p.1 ≠ src_host ∧ p.1 ≠ cfg.target) ∨
      p = (src_host, emit_src_fn srcNl src_shard rest_shards srcNl) ∨
      p = (cfg.target, { tgtNl with tablet_count := tgtNl.tablet_count + 1 }) := by
    intro p hp
    rcases mem_updateN_nodup hk1 hl1 hp with ⟨hp1, hne1⟩ | heq1
    · rcases mem_updateN_nodup g.keys_nodup hlook hp1 with ⟨hp2, hne2⟩ | heq2
      · exact Or.inl ⟨hp2, hne2, hne1⟩
      · exact Or.inr (Or.inl heq2)
    · exact Or.inr (Or.inr heq1)
  have hcand_sub : ∀ tr gt, gt ∈ cand_at (updateN (updateN st.nodes src_host
        (emit_src_fn srcNl src_shard rest_shards)) cfg.target
        (fun nl => { nl with tablet_count := nl.tablet_count + 1 })) tr →
      gt ∈ cand_at st.nodes tr := by
    intro tr gt hg2m
    have step1 := cand_at_updateN_subset (f := fun nl =>
      { nl with tablet_count := nl.tablet_count + 1 })
      (fun nl i => by exact fun x hx => hx) tr gt hg2m
    refine cand_at_updateN_subset (f := emit_src_fn srcNl src_shard rest_shards)
      (fun nl i => ?_) tr gt step1
    unfold emit_src_fn
    exact get_set_cand_subset (fun sl => List.drop_subset 1 sl.candidates) i
  rw [emit_state_spec hlook hne hrange]
  constructor
  · refine ⟨?_, ?_, ?_, ?_, ?_, ?_, ?_, ?_, ?_, ?_, ?_, ?_, ?_⟩
    · show ((updateN (updateN _ _ _) _ _).map Prod.fst).Nodup
      rw [keys_updateN, keys_updateN]
      exact g.keys_nodup
    · show (lookupN (updateN (updateN _ _ _) _ _) _).isSome = true
      rw [lookupN_updateN_self _ hl1]
      rfl
    · intro h hh
      have hh2 : h ∈ rest_nodes ∨ h = src_host := by
        by_cases hz : srcNl.tablet_count - 1 = 0
        · rw [if_pos hz] at hh
          exact Or.inl hh
        · rw [if_neg hz] at hh
          rcases List.mem_append.mp hh with hh1 | hh1
          · exact Or.inl hh1
          · exact Or.inr (by simpa using hh1)
      have hsome : (lookupN st.nodes h).isSome = true := by
        rcases hh2 with hh1 | hh1
        · exact g.heap_mem h (pop_max_by_subset hpop1 h hh1)
        · rw [hh1, hlook]; rfl
      exact lookupN_updateN_isSome _ (lookupN_updateN_isSome _ hsome)
    · intro p hp sh hsh
      rcases hclass p hp with ⟨hp2, _, _⟩ | heq | heq
      · exact g.shard_heap_bound p hp2 sh hsh
      · subst heq
        unfold emit_src_fn at hsh ⊢
        simp only at hsh ⊢
        rw [set_shard_length]
        by_cases hz : (get_shard srcNl.shards src_shard).tablet_count - 1 = 0
        · rw [if_pos hz] at hsh
          have hold := g.shard_heap_bound (src_host, srcNl) hmemsrc sh (hrs_sub sh hsh)
          have hne_ss : sh ≠ src_shard := fun hcon => hrs_nodup.2 (hcon ▸ hsh)
          rw [get_set_shard_of_ne _ hne_ss]
          exact hold
        · rw [if_neg hz] at hsh
          rcases List.mem_append.mp hsh with hh1 | hh1
          · have hold := g.shard_heap_bound (src_host, srcNl) hmemsrc sh (hrs_sub sh hh1)
            have hne_ss : sh ≠ src_shard := fun hcon => hrs_nodup.2 (hcon ▸ hh1)
            rw [get_set_shard_of_ne _ hne_ss]
            exact hold
          · have hsh_eq : sh = src_shard := by simpa using hh1
            subst hsh_eq
            rw [get_set_shard_self _ hrange]
            exact ⟨hrange, by simp only; omega⟩
      · subst heq
        simp only at hsh ⊢
        exact g.shard_heap_bound (cfg.target, tgtNl) hmemtgt sh hsh
    · intro p hp
      rcases hclass p hp with ⟨hp2, _, _⟩ | heq | heq
      · exact g.shard_heap_nodup p hp2
      · subst heq
        unfold emit_src_fn
        simp only
        by_cases hz : (get_shard srcNl.shards src_shard).tablet_count - 1 = 0
        · rw [if_pos hz]
          exact hrs_nodup.1
        · rw [if_neg hz]
          exact nodup_append_singleton hrs_nodup.1 hrs_nodup.2
      · subst heq
        exact g.shard_heap_nodup (cfg.target, tgtNl) hmemtgt
    · intro p hp sl hsl
      rcases hclass p hp with ⟨hp2, _, _⟩ | heq | heq
      · exact g.cand_nodup p hp2 sl hsl
      · subst heq
        unfold emit_src_fn at hsl
        simp only at hsl
        rcases mem_set_shard hsl with hm1 | hm1
        · exact g.cand_nodup (src_host, srcNl) hmemsrc sl hm1
        · rw [hm1]
          simp only
          rw [hcand]
          simp only [List.drop_succ_cons, List.drop_zero]
          exact (List.nodup_cons.mp hcnodup).2
      · subst heq
        exact g.cand_nodup (cfg.target, tgtNl) hmemtgt sl hsl
    · intro p hp
      rcases hclass p hp with ⟨hp2, hne2, hne1⟩ | heq | heq
      · refine ⟨fun _ => ((g.count_inv p hp2).1 hne1).trans rfl, fun hcon => absurd hcon hne1⟩
      · subst heq
        refine ⟨fun _ => ?_, fun hcon => absurd hcon hne⟩
        unfold emit_src_fn
        simp only
        have hsum := sum_shard_tc_set (fun sl =>
          ({ tablet_count := sl.tablet_count - 1,
             candidates := sl.candidates.drop 1 } : shard_load)) hrange
        simp only at hsum
        have hss_pos := hbss.2
        have := get_shard_tc_le_sum hrange
        omega
      · subst heq
        refine ⟨fun hcon => absurd rfl hcon, fun _ => ?_⟩
        simp only [List.length_append, List.length_cons, List.length_nil]
        have := (g.count_inv (cfg.target, tgtNl) hmemtgt).2 rfl
        simp only at this ⊢
        omega
    · intro m hm
      rcases List.mem_append.mp hm with hm1 | hm1
      · exact g.plan_dst m hm1
      · have hmeq : m = ⟨source_tablet, ⟨src_host, src_shard⟩,
            ⟨cfg.target, (next_shard st.sketch).1⟩⟩ := by simpa using hm1
        subst hmeq
        refine ⟨rfl, ?_⟩
        intro r hr heq
        have : (tablet_info_of cfg.snap source_tablet).replicas.any
            (fun r => r.host == cfg.target) = true :=
          List.any_eq_true.mpr ⟨r, hr, by simp [heq]⟩
        rw [hnotgt] at this
        simp at this
    · rw [List.pairwise_append]
      refine ⟨g.plan_pairs, List.pairwise_singleton _ _, ?_⟩
      intro a ha b hb
      have hbeq : b = ⟨source_tablet, ⟨src_host, src_shard⟩,
          ⟨cfg.target, (next_shard st.sketch).1⟩⟩ := by simpa using hb
      subst hbeq
      intro hcon
      apply g.plan_not_cand a ha
      rw [hcon.2]
      unfold cand_at
      simp only
      rw [hlook]
      show a.tablet ∈ (get_shard srcNl.shards src_shard).candidates
      rw [hcand, hcon.1]
      exact List.mem_cons_self _ _
    · intro m hm
      rcases List.mem_append.mp hm with hm1 | hm1
      · intro hcon
        exact g.plan_not_cand m hm1 (hcand_sub m.src m.tablet hcon)
      · have hmeq : m = ⟨source_tablet, ⟨src_host, src_shard⟩,
            ⟨cfg.target, (next_shard st.sketch).1⟩⟩ := by simpa using hm1
        subst hmeq
        intro hcon
        unfold cand_at at hcon
        simp only at hcon
        rw [lookupN_updateN_of_ne _ hne, lookupN_updateN_self _ hlook] at hcon
        unfold emit_src_fn at hcon
        simp only [get_set_shard_self _ hrange, hcand, List.drop_succ_cons,
          List.drop_zero] at hcon
        exact (List.nodup_cons.mp hcnodup).1 hcon
    · intro m hm
      rcases List.mem_append.mp hm with hm1 | hm1
      · exact g.plan_rack m hm1
      · have hmeq : m = ⟨source_tablet, ⟨src_host, src_shard⟩,
            ⟨cfg.target, (next_shard st.sketch).1⟩⟩ := by simpa using hm1
        subst hmeq
        intro hrne
        simp only at hrne ⊢
        have hnsr : ¬ (rack_of cfg.snap cfg.target = rack_of cfg.snap src_host) := hrne
        have := fun hlt => hrack ⟨hnsr, hlt⟩
        omega
    · intro e he
      rcases List.mem_append.mp he with he1 | he1
      · exact g.trace_ok e he1
      · have heeq : e = ⟨⟨source_tablet, ⟨src_host, src_shard⟩,
            ⟨cfg.target, (next_shard st.sketch).1⟩⟩, srcNl.tablet_count,
            srcNl.shard_count, tgtNl.tablet_count, tgtNl.shard_count⟩ := by simpa using he1
        subst heeq
        exact ⟨htcpos, load_le_of_not_lt hg3⟩
    · simp only [List.length_append, List.length_cons, List.length_nil]
      omega
  · have hlen1 := pop_max_by_length hpop1
    have hlen2 := pop_max_by_length hpop2
    have hm_tgt : nodes_measure (updateN (updateN st.nodes src_host
          (emit_src_fn srcNl src_shard rest_shards)) cfg.target
          (fun nl => { nl with tablet_count := nl.tablet_count + 1 }))
        + node_measure tgtNl
        = nodes_measure (updateN st.nodes src_host
            (emit_src_fn srcNl src_shard rest_shards))
          + node_measure ({ tgtNl with tablet_count := tgtNl.tablet_count + 1 }) :=
      nodes_measure_updateN _ hl1
    have hm_src := nodes_measure_updateN (emit_src_fn srcNl src_shard rest_shards) hlook
    have hctot := cand_total_set (fun sl =>
      ({ tablet_count := sl.tablet_count - 1,
         candidates := sl.candidates.drop 1 } : shard_load)) hrange
    simp only [hcand, List.drop_succ_cons, List.drop_zero, List.length_cons] at hctot
    have hsbl_le : (if (get_shard srcNl.shards src_shard).tablet_count - 1 = 0
        then rest_shards else rest_shards ++ [src_shard]).length
        ≤ rest_shards.length + 1 := by
      split
      · omega
      · simp
    have hnbl_le : (if srcNl.tablet_count - 1 = 0
        then rest_nodes else rest_nodes ++ [src_host]).length
        ≤ rest_nodes.length + 1 := by
      split
      · omega
      · simp
    simp only [node_measure, emit_src_fn, List.length_append, List.length_cons,
      List.length_nil] at hm_tgt hm_src
    simp only [state_measure]
    omega

/-- Every `next` outcome of `step_fn` preserves the loop invariant and
strictly decreases the loop variant. -/
theorem step_next_good {cfg : plan_cfg} {st st2 : loop_state}
    (g : good_state cfg st) (hstep : step_fn cfg st = .next st2) :
    good_state cfg st2 ∧ state_measure st2 < state_measure st := by
  simp only [step_fn] at hstep
  split at hstep
  case isFalse => exact absurd hstep (by simp)
  case isTrue hpl =>
  split at hstep
  case h_1 => exact absurd hstep (by simp)
  case h_2 src_host rest_nodes hpop1 =>
  obtain ⟨srcNl, hlook⟩ := Option.isSome_iff_exists.mp
    (g.heap_mem src_host (pop_max_by_mem hpop1))
  obtain ⟨tgtNl, hlookt⟩ := Option.isSome_iff_exists.mp g.target_in
  rw [hlook, hlookt] at hstep
  simp only [Option.getD_some] at hstep
  split at hstep
  case isTrue => exact absurd hstep (by simp)
  case isFalse hg1 =>
  split at hstep
  case isTrue => exact absurd hstep (by simp)
  case isFalse hg2 =>
  split at hstep
  case isTrue => exact absurd hstep (by simp)
  case isFalse hg3 =>
  split at hstep
  case isTrue hempty =>
    injection hstep with h2
    subst h2
    exact good_drop_node g _ hpop1
  case isFalse hnonempty =>
  split at hstep
  case h_1 hpopnone =>
    exact absurd hstep (by simp)
  case h_2 src_shard rest_shards hpop2 =>
  split at hstep
  case h_1 hcand_empty =>
    injection hstep with h2
    subst h2
    exact good_drop_shard g hpop1 hlook hpop2
  case h_2 source_tablet rest_cands hcand =>
  split at hstep
  case isTrue hhasrep =>
    injection hstep with h2
    subst h2
    exact good_skip_candidate g hpop1 hlook hpop2 hcand
  case isFalse hhasrep =>
  split at hstep
  case isTrue hrackbad =>
    injection hstep with h2
    subst h2
    exact good_skip_candidate g hpop1 hlook hpop2 hcand
  case isFalse hrackok =>
  injection hstep with h2
  subst h2
  exact good_emit g hpop1 hlook hlookt hpop2 hcand hpl hg2 hg3
    (by revert hhasrep; cases ((tablet_info_of cfg.snap source_tablet).replicas.any
      (fun r => r.host == cfg.target)) <;> simp) hrackok

/-- Every `stop` outcome of `step_fn` (a `break` or the loop condition
failing) leaves the state unchanged. -/
theorem step_stop_eq {cfg : plan_cfg} {st st2 : loop_state}
    (hstep : step_fn cfg st = .stop st2) : st2 = st := by
  simp only [step_fn] at hstep
  split at hstep
  case isFalse =>
    injection hstep with h2
    exact h2.symm
  case isTrue =>
  split at hstep
  case h_1 =>
    injection hstep with h2
    exact h2.symm
  case h_2 src_host rest_nodes hpop1 =>
  split at hstep
  case isTrue =>
    injection hstep with h2
    exact h2.symm
  case isFalse =>
  split at hstep
  case isTrue =>
    injection hstep with h2
    exact h2.symm
  case isFalse =>
  split at hstep
  case isTrue =>
    injection hstep with h2
    exact h2.symm
  case isFalse =>
  split at hstep
  case isTrue => exact absurd hstep (by simp)
  case isFalse =>
  split at hstep
  case h_1 =>
    injection hstep with h2
    exact h2.symm
  case h_2 src_shard rest_shards hpop2 =>
  split at hstep
  case h_1 => exact absurd hstep (by simp)
  case h_2 source_tablet rest_cands hcand =>
  split at hstep
  case isTrue => exact absurd hstep (by simp)
  case isFalse =>
  split at hstep
  case isTrue => exact absurd hstep (by simp)
  case isFalse => exact absurd hstep (by simp)

/-- With fuel exceeding the loop variant, the selection loop completes and
preserves the invariant. -/
theorem run_loop_good {cfg : plan_cfg} : ∀ (fuel : Nat) (st : loop_state),
    good_state cfg st → state_measure st < fuel →
    ∃ st2, run_loop cfg fuel st = some st2 ∧ good_state cfg st2 := by
  intro fuel
  induction fuel with
  | zero => intro st _ hm; omega
  | succ f ih =>
    intro st hg hm
    rw [run_loop]
    cases hs : step_fn cfg st with
    | stop stB =>
      refine ⟨stB, rfl, ?_⟩
      rw [step_stop_eq hs]
      exact hg
    | next stB =>
      obtain ⟨hg2, hm2⟩ := step_next_good hg hs
      exact ih stB hg2 (by omega)

/-! ## Establishment of the invariant by the construction phases -/

theorem foldlM_except_inv {α β : Type} {f : β → α → Except plan_error β} {P : β → Prop}
    (hf : ∀ b a b2, P b → f b a = .ok b2 → P b2) :
    ∀ {l : List α} {b b2 : β}, P b → List.foldlM f b l = .ok b2 → P b2 := by
  intro l
  induction l with
  | nil =>
    intro b b2 hP h
    rw [List.foldlM_nil] at h
    have h2 : (Except.ok b : Except plan_error β) = .ok b2 := h
    injection h2 with h2
    rw [← h2]
    exact hP
  | cons a as ih =>
    intro b b2 hP h
    rw [List.foldlM_cons] at h
    cases hfa : f b a with
    | error e =>
      rw [hfa] at h
      have h2 : (Except.error e : Except plan_error β) = .ok b2 := h
      exact Except.noConfusion h2
    | ok b3 =>
      rw [hfa] at h
      have h2 : List.foldlM f b3 as = .ok b2 := h
      exact ih (hf b a b3 hP hfa) h2

theorem mem_keys_upsertN : ∀ {l : List (Nat × node_load)} {h k : Nat}
    {f : node_load → node_load},
    k ∈ (upsertN l h f).map Prod.fst → k ∈ l.map Prod.fst ∨ k = h := by
  intro l
  induction l with
  | nil =>
    intro h k f hk
    simp [upsertN] at hk
    exact Or.inr hk
  | cons p rest ih =>
    intro h k f hk
    rw [upsertN] at hk
    by_cases he : p.1 = h
    · rw [if_pos he] at hk
      simp only [List.map_cons, List.mem_cons] at hk
      rcases hk with hk | hk
      · exact Or.inl (by simp [hk])
      · exact Or.inl (by simp only [List.map_cons, List.mem_cons]; exact Or.inr hk)
    · rw [if_neg he] at hk
      simp only [List.map_cons, List.mem_cons] at hk
      rcases hk with hk | hk
      · exact Or.inl (by simp [hk])
      · rcases ih hk with h1 | h1
        · exact Or.inl (by simp only [List.map_cons, List.mem_cons]; exact Or.inr h1)
        · exact Or.inr h1

theorem keys_nodup_upsertN {h : Nat} {f : node_load → node_load} :
    ∀ {l : List (Nat × node_load)},
    (l.map Prod.fst).Nodup → ((upsertN l h f).map Prod.fst).Nodup := by
  intro l
  induction l with
  | nil => intro _; simp [upsertN]
  | cons p rest ih =>
    intro hl
    rw [List.map_cons, List.nodup_cons] at hl
    rw [upsertN]
    by_cases he : p.1 = h
    · rw [if_pos he]
      rw [List.map_cons, List.nodup_cons]
      exact ⟨hl.1, hl.2⟩
    · rw [if_neg he]
      rw [List.map_cons, List.nodup_cons]
      refine ⟨?_, ih hl.2⟩
      intro hmem
      rcases mem_keys_upsertN hmem with h1 | h1
      · exact hl.1 h1
      · exact he h1

theorem mem_upsertN : ∀ {l : List (Nat × node_load)} {h : Nat} {f : node_load → node_load}
    {p : Nat × node_load}, p ∈ upsertN l h f →
    p ∈ l ∨ (∃ v, lookupN l h = some v ∧ p = (h, f v)) ∨
      (lookupN l h = none ∧ p = (h, f empty_node)) := by
  intro l
  induction l with
  | nil =>
    intro h f p hp
    simp only [upsertN] at hp
    rcases List.mem_cons.mp hp with hp1 | hp1
    · exact Or.inr (Or.inr ⟨rfl, hp1⟩)
    · simp at hp1
  | cons q rest ih =>
    intro h f p hp
    rw [upsertN] at hp
    by_cases he : q.1 = h
    · rw [if_pos he] at hp
      rcases List.mem_cons.mp hp with hp1 | hp1
      · exact Or.inr (Or.inl ⟨q.2, by rw [lookupN, if_pos he], by rw [hp1, he]⟩)
      · exact Or.inl (List.mem_cons_of_mem _ hp1)
    · rw [if_neg he] at hp
      rcases List.mem_cons.mp hp with hp1 | hp1
      · exact Or.inl (by simp [hp1])
      · rcases ih hp1 with h1 | ⟨v, hv1, hv2⟩ | ⟨hv1, hv2⟩
        · exact Or.inl (List.mem_cons_of_mem _ h1)
        · exact Or.inr (Or.inl ⟨v, by rw [lookupN, if_neg he]; exact hv1, hv2⟩)
        · exact Or.inr (Or.inr ⟨by rw [lookupN, if_neg he]; exact hv1, hv2⟩)

theorem resize_shards_length (l : List shard_load) (n : Nat) :
    (resize_shards l n).length = n := by
  simp [resize_shards]
  omega

theorem mem_resize_shards {l : List shard_load} {n : Nat} {sl : shard_load}
    (hall : ∀ x ∈ l, x = empty_shard) (hm : sl ∈ resize_shards l n) :
    sl = empty_shard := by
  rcases List.mem_append.mp hm with h1 | h1
  · exact hall _ (List.take_subset n l h1)
  · exact List.eq_of_mem_replicate h1

theorem select_nodes_good {s : snapshot} {dc : Nat} {n1 : List (Nat × node_load)}
    (h : select_nodes s dc = .ok n1) :
    (n1.map Prod.fst).Nodup ∧ ∀ p ∈ n1, nodeQ p.2 := by
  unfold select_nodes at h
  refine foldlM_except_inv
    (P := fun acc => ((acc.map Prod.fst).Nodup ∧ ∀ p ∈ acc, nodeQ p.2)) ?_
    ⟨by simp, by simp⟩ h
  intro b a b2 hP hstep
  unfold select_step at hstep
  split at hstep
  case isFalse =>
    injection hstep with h2
    rw [← h2]
    exact hP
  case isTrue hcond =>
  split at hstep
  case isTrue => exact Except.noConfusion hstep
  case isFalse hsc =>
  injection hstep with h2
  subst h2
  have hfq : ∀ v : node_load, v.tablet_count = 0 → v.shards_by_load = [] →
      (∀ sl ∈ v.shards, sl = empty_shard) →
      nodeQ { v with shard_count := a.shard_count,
                     shards := resize_shards v.shards a.shard_count } := by
    intro v h1 h2 h3
    refine ⟨h1, h2, ?_, ?_, ?_⟩
    · intro sl hsl
      exact mem_resize_shards h3 hsl
    · exact resize_shards_length _ _
    · show 0 < a.shard_count
      exact Nat.pos_of_ne_zero hsc
  constructor
  · exact keys_nodup_upsertN hP.1
  · intro p hp
    rcases mem_upsertN hp with hpl | ⟨v, hv1, hv2⟩ | ⟨hv1, hv2⟩
    · exact hP.2 p hpl
    · have hq := hP.2 (a.host, v) (mem_of_lookupN hv1)
      rw [hv2]
      exact hfq v hq.1 hq.2.1 hq.2.2.1
    · rw [hv2]
      exact hfq empty_node rfl rfl (by intro sl hsl; simp [empty_node] at hsl)

theorem cnt_for_cons (t : Nat × Nat × tablet_replica)
    (ts : List (Nat × Nat × tablet_replica)) (h : Nat) :
    cnt_for (t :: ts) h = (if t.2.2.host = h then 1 else 0) + cnt_for ts h := by
  simp only [cnt_for, List.filter_cons]
  by_cases he : t.2.2.host = h
  · simp [he]
    omega
  · simp [he]

theorem add_candidate_nodup {l : List global_tablet_id} {g : global_tablet_id}
    (hl : l.Nodup) : (add_candidate l g).Nodup := by
  unfold add_candidate
  split
  · exact hl
  · exact nodup_append_singleton hl (by assumption)

theorem sum_empty_shards : ∀ {l : List shard_load},
    (∀ sl ∈ l, sl = empty_shard) → sum_shard_tc l = 0 := by
  intro l
  induction l with
  | nil => intro _; rfl
  | cons x xs ih =>
    intro hall
    rw [sum_shard_tc]
    rw [hall x (List.mem_cons_self _ _)]
    rw [ih (fun sl hsl => hall sl (List.mem_cons_of_mem _ hsl))]
    rfl

theorem shard_bump_shards (t : Nat × Nat × tablet_replica) (nl : node_load) :
    (shard_bump t nl).shards = set_shard nl.shards t.2.2.shard (fun sl2 =>
      { tablet_count := sl2.tablet_count + 1,
        candidates := add_candidate sl2.candidates ⟨t.1, t.2.1⟩ }) := rfl

theorem shard_bump_sbl (t : Nat × Nat × tablet_replica) (nl : node_load) :
    (shard_bump t nl).shards_by_load =
      (if (get_shard nl.shards t.2.2.shard).tablet_count = 0
        then nl.shards_by_load ++ [t.2.2.shard] else nl.shards_by_load) := rfl

theorem shard_bump_tc (t : Nat × Nat × tablet_replica) (nl : node_load) :
    (shard_bump t nl).tablet_count = nl.tablet_count := rfl

theorem shard_bump_sc (t : Nat × Nat × tablet_replica) (nl : node_load) :
    (shard_bump t nl).shard_count = nl.shard_count := rfl

theorem count_node_step_lookup {acc acc2 : List (Nat × node_load)}
    {t : Nat × Nat × tablet_replica}
    (hfa : count_node_step acc t = .ok acc2) (h : Nat) :
    lookupN acc2 h = (lookupN acc h).map
      (fun nl => if t.2.2.host = h
        then { nl with tablet_count := nl.tablet_count + 1 } else nl) := by
  unfold count_node_step at hfa
  split at hfa
  case isTrue hcont =>
    simp only [] at hfa
    split at hfa
    case isTrue => exact Except.noConfusion hfa
    case isFalse =>
      injection hfa with hfa
      subst hfa
      by_cases ht : t.2.2.host = h
      · subst ht
        cases hl : lookupN acc t.2.2.host with
        | none =>
          unfold containsN at hcont
          rw [hl] at hcont
          simp at hcont
        | some v =>
          rw [lookupN_updateN_self _ hl]
          simp
      · rw [lookupN_updateN_of_ne _ (fun hh => ht hh.symm)]
        cases hl : lookupN acc h with
        | none => simp
        | some v => simp [ht]
  case isFalse hcont =>
    injection hfa with hfa
    subst hfa
    cases hl : lookupN acc h with
    | none => simp
    | some v =>
      by_cases ht : t.2.2.host = h
      · rw [ht] at hcont
        unfold containsN at hcont
        rw [hl] at hcont
        simp at hcont
      · simp [ht]

theorem count_shard_step_lookup (acc : List (Nat × node_load))
    (t : Nat × Nat × tablet_replica) (h : Nat) :
    lookupN (count_shard_step acc t) h = (lookupN acc h).map
      (fun nl => if t.2.2.host = h then shard_bump t nl else nl) := by
  unfold count_shard_step
  split
  case isTrue hcont =>
    by_cases ht : t.2.2.host = h
    · subst ht
      cases hl : lookupN acc t.2.2.host with
      | none =>
        unfold containsN at hcont
        rw [hl] at hcont
        simp at hcont
      | some v =>
        rw [lookupN_updateN_self _ hl]
        simp
    · rw [lookupN_updateN_of_ne _ (fun hh => ht hh.symm)]
      cases hl : lookupN acc h with
      | none => simp
      | some v => simp [ht]
  case isFalse hcont =>
    cases hl : lookupN acc h with
    | none => simp
    | some v =>
      by_cases ht : t.2.2.host = h
      · rw [ht] at hcont
        unfold containsN at hcont
        rw [hl] at hcont
        simp at hcont
      · simp [ht]

theorem count_node_fold_keys : ∀ {l : List (Nat × Nat × tablet_replica)}
    {acc res : List (Nat × node_load)},
    List.foldlM count_node_step acc l = .ok res →
    res.map Prod.fst = acc.map Prod.fst := by
  intro l
  induction l with
  | nil =>
    intro acc res hfold
    rw [List.foldlM_nil] at hfold
    have h2 : (Except.ok acc : Except plan_error _) = .ok res := hfold
    injection h2 with h2
    rw [h2]
  | cons t ts ih =>
    intro acc res hfold
    rw [List.foldlM_cons] at hfold
    cases hfa : count_node_step acc t with
    | error e =>
      rw [hfa] at hfold
      exact Except.noConfusion
        (show (Except.error e : Except plan_error _) = .ok res from hfold)
    | ok acc2 =>
      rw [hfa] at hfold
      have hfold2 : List.foldlM count_node_step acc2 ts = .ok res := hfold
      rw [ih hfold2]
      unfold count_node_step at hfa
      split at hfa
      case isTrue =>
        simp only [] at hfa
        split at hfa
        case isTrue => exact Except.noConfusion hfa
        case isFalse =>
          injection hfa with hfa
          subst hfa
          exact keys_updateN _ _ _
      case isFalse =>
        injection hfa with hfa
        rw [hfa]

theorem count_shard_fold_keys : ∀ (l : List (Nat × Nat × tablet_replica))
    (acc : List (Nat × node_load)),
    (l.foldl count_shard_step acc).map Prod.fst = acc.map Prod.fst := by
  intro l
  induction l with
  | nil => intro acc; rfl
  | cons t ts ih =>
    intro acc
    rw [List.foldl_cons, ih]
    unfold count_shard_step
    split
    · exact keys_updateN _ _ _
    · rfl

theorem count_node_fold_spec : ∀ {l : List (Nat × Nat × tablet_replica)}
    {acc res : List (Nat × node_load)},
    List.foldlM count_node_step acc l = .ok res →
    ∀ h nl, lookupN acc h = some nl → ∃ nl2, lookupN res h = some nl2 ∧
      nl2.tablet_count = nl.tablet_count + cnt_for l h ∧
      nl2.shard_count = nl.shard_count ∧ nl2.shards = nl.shards ∧
      nl2.shards_by_load = nl.shards_by_load := by
  intro l
  induction l with
  | nil =>
    intro acc res hfold h nl hl
    rw [List.foldlM_nil] at hfold
    have h2 : (Except.ok acc : Except plan_error _) = .ok res := hfold
    injection h2 with h2
    subst h2
    exact ⟨nl, hl, by simp [cnt_for], rfl, rfl, rfl⟩
  | cons t ts ih =>
    intro acc res hfold h nl hl
    rw [List.foldlM_cons] at hfold
    cases hfa : count_node_step acc t with
    | error e =>
      rw [hfa] at hfold
      exact Except.noConfusion
        (show (Except.error e : Except plan_error _) = .ok res from hfold)
    | ok acc2 =>
      rw [hfa] at hfold
      have hfold2 : List.foldlM count_node_step acc2 ts = .ok res := hfold
      have hchar := count_node_step_lookup hfa h
      rw [hl] at hchar
      rw [Option.map_some'] at hchar
      by_cases ht : t.2.2.host = h
      · rw [if_pos ht] at hchar
        obtain ⟨nl2, h1, h2, h3, h4, h5⟩ := ih hfold2 h _ hchar
        refine ⟨nl2, h1, ?_, h3, h4, h5⟩
        rw [cnt_for_cons, if_pos ht]
        simp only at h2
        omega
      · rw [if_neg ht] at hchar
        obtain ⟨nl2, h1, h2, h3, h4, h5⟩ := ih hfold2 h _ hchar
        refine ⟨nl2, h1, ?_, h3, h4, h5⟩
        rw [cnt_for_cons, if_neg ht]
        omega

theorem count_node_fold_bounds : ∀ {l : List (Nat × Nat × tablet_replica)}
    {acc res : List (Nat × node_load)},
    List.foldlM count_node_step acc l = .ok res →
    ∀ t ∈ l, ∀ nl, lookupN acc t.2.2.host = some nl → t.2.2.shard < nl.shard_count := by
  intro l
  induction l with
  | nil => intro acc res _ t ht; simp at ht
  | cons t0 ts ih =>
    intro acc res hfold t ht nl hl
    rw [List.foldlM_cons] at hfold
    cases hfa : count_node_step acc t0 with
    | error e =>
      rw [hfa] at hfold
      exact Except.noConfusion
        (show (Except.error e : Except plan_error _) = .ok res from hfold)
    | ok acc2 =>
      rw [hfa] at hfold
      have hfold2 : List.foldlM count_node_step acc2 ts = .ok res := hfold
      rcases List.mem_cons.mp ht with ht1 | ht1
      · subst ht1
        unfold count_node_step at hfa
        split at hfa
        case isTrue hcont =>
          simp only [] at hfa
          split at hfa
          case isTrue => exact Except.noConfusion hfa
          case isFalse hchk =>
            rw [lookupN_updateN_self
              (fun nl => { nl with tablet_count := nl.tablet_count + 1 }) hl] at hchk
            rw [Option.getD_some] at hchk
            have hchk2 : ¬ (nl.shard_count ≤ t.2.2.shard) := hchk
            omega
        case isFalse hcont =>
          unfold containsN at hcont
          rw [hl] at hcont
          simp at hcont
      · have hchar := count_node_step_lookup hfa t.2.2.host
        rw [hl] at hchar
        rw [Option.map_some'] at hchar
        have := ih hfold2 t ht1 _ hchar
        split at this
        · simpa using this
        · exact this

theorem count_shard_fold_spec : ∀ (l : List (Nat × Nat × tablet_replica))
    (acc : List (Nat × node_load)),
    (∀ t ∈ l, ∀ nl, lookupN acc t.2.2.host = some nl →
      t.2.2.shard < nl.shards.length) →
    ∀ h nl, lookupN acc h = some nl →
    ∃ nl2, lookupN (l.foldl count_shard_step acc) h = some nl2 ∧
      nl2.tablet_count = nl.tablet_count ∧ nl2.shard_count = nl.shard_count ∧
      nl2.shards.length = nl.shards.length ∧
      sum_shard_tc nl2.shards = sum_shard_tc nl.shards + cnt_for l h := by
  intro l
  induction l with
  | nil =>
    intro acc _ h nl hl
    exact ⟨nl, hl, rfl, rfl, rfl, by simp [cnt_for]⟩
  | cons t ts ih =>
    intro acc hb h nl hl
    rw [List.foldl_cons]
    have hchar := count_shard_step_lookup acc t h
    rw [hl] at hchar
    rw [Option.map_some'] at hchar
    have hb2 : ∀ t2 ∈ ts, ∀ nl2, lookupN (count_shard_step acc t) t2.2.2.host = some nl2 →
        t2.2.2.shard < nl2.shards.length := by
      intro t2 ht2 nl2 hl2
      rw [count_shard_step_lookup acc t t2.2.2.host] at hl2
      cases hl0 : lookupN acc t2.2.2.host with
      | none => rw [hl0] at hl2; simp at hl2
      | some nl0 =>
        rw [hl0] at hl2
        rw [Option.map_some'] at hl2
        injection hl2 with hl2
        have hlen : nl2.shards.length = nl0.shards.length := by
          rw [← hl2]
          split
          · rw [shard_bump_shards, set_shard_length]
          · rfl
        rw [hlen]
        exact hb t2 (List.mem_cons_of_mem _ ht2) nl0 hl0
    by_cases ht : t.2.2.host = h
    · rw [if_pos ht] at hchar
      obtain ⟨nl2, h1, h2, h3, h4, h5⟩ := ih _ hb2 h _ hchar
      have hrange : t.2.2.shard < nl.shards.length := by
        apply hb t (List.mem_cons_self _ _)
        rw [ht]
        exact hl
      have hsum : sum_shard_tc (shard_bump t nl).shards = sum_shard_tc nl.shards + 1 := by
        have h0 := sum_shard_tc_set (fun sl2 =>
          ({ tablet_count := sl2.tablet_count + 1,
             candidates := add_candidate sl2.candidates ⟨t.1, t.2.1⟩ } : shard_load)) hrange
        have h1 : sum_shard_tc (shard_bump t nl).shards
            + (get_shard nl.shards t.2.2.shard).tablet_count
            = sum_shard_tc nl.shards
            + ((get_shard nl.shards t.2.2.shard).tablet_count + 1) := h0
        omega
      have hlen : (shard_bump t nl).shards.length = nl.shards.length := by
        rw [shard_bump_shards, set_shard_length]
      refine ⟨nl2, h1, ?_, ?_, ?_, ?_⟩
      · rw [h2, shard_bump_tc]
      · rw [h3, shard_bump_sc]
      · rw [h4, hlen]
      · rw [h5, hsum, cnt_for_cons, if_pos ht]
        omega
    · rw [if_neg ht] at hchar
      obtain ⟨nl2, h1, h2, h3, h4, h5⟩ := ih _ hb2 h _ hchar
      refine ⟨nl2, h1, h2, h3, h4, ?_⟩
      rw [h5, cnt_for_cons, if_neg ht]
      omega

theorem count_shard_fold_inv : ∀ (l : List (Nat × Nat × tablet_replica))
    (acc : List (Nat × node_load)),
    (∀ t ∈ l, ∀ nl, lookupN acc t.2.2.host = some nl →
      t.2.2.shard < nl.shards.length) →
    (∀ p ∈ acc, shardInv p.2) →
    ∀ p ∈ l.foldl count_shard_step acc, shardInv p.2 := by
  intro l
  induction l with
  | nil => intro acc _ hP p hp; exact hP p hp
  | cons t ts ih =>
    intro acc hb hP p hp
    rw [List.foldl_cons] at hp
    have hb2 : ∀ t2 ∈ ts, ∀ nl2, lookupN (count_shard_step acc t) t2.2.2.host = some nl2 →
        t2.2.2.shard < nl2.shards.length := by
      intro t2 ht2 nl2 hl2
      rw [count_shard_step_lookup acc t t2.2.2.host] at hl2
      cases hl0 : lookupN acc t2.2.2.host with
      | none => rw [hl0] at hl2; simp at hl2
      | some nl0 =>
        rw [hl0] at hl2
        rw [Option.map_some'] at hl2
        injection hl2 with hl2
        have hlen : nl2.shards.length = nl0.shards.length := by
          rw [← hl2]
          split
          · rw [shard_bump_shards, set_shard_length]
          · rfl
        rw [hlen]
        exact hb t2 (List.mem_cons_of_mem _ ht2) nl0 hl0
    refine ih _ hb2 ?_ p hp
    intro q hq
    unfold count_shard_step at hq
    split at hq
    case isFalse => exact hP q hq
    case isTrue hcont =>
    rcases mem_updateN hq with hq1 | ⟨v, hv1, hv2⟩
    · exact hP q hq1
    · subst hv2
      have hinv : shardInv v := hP (t.2.2.host, v) (mem_of_lookupN hv1)
      have hrange : t.2.2.shard < v.shards.length :=
        hb t (List.mem_cons_self _ _) v hv1
      show shardInv (shard_bump t v)
      refine ⟨?_, ?_, ?_⟩
      · intro sh hsh
        rw [shard_bump_sbl] at hsh
        rw [shard_bump_shards, set_shard_length]
        by_cases hz : (get_shard v.shards t.2.2.shard).tablet_count = 0
        · rw [if_pos hz] at hsh
          rcases List.mem_append.mp hsh with hh1 | hh1
          · have hv3 := hinv.1 sh hh1
            refine ⟨hv3.1, ?_⟩
            by_cases hsh2 : sh = t.2.2.shard
            · rw [hsh2, get_set_shard_self _ hrange]
              simp
            · rw [get_set_shard_of_ne _ hsh2]
              exact hv3.2
          · have hsh_eq : sh = t.2.2.shard := by simpa using hh1
            rw [hsh_eq]
            refine ⟨hrange, ?_⟩
            rw [get_set_shard_self _ hrange]
            simp
        · rw [if_neg hz] at hsh
          have hv3 := hinv.1 sh hsh
          refine ⟨hv3.1, ?_⟩
          by_cases hsh2 : sh = t.2.2.shard
          · rw [hsh2, get_set_shard_self _ hrange]
            simp
          · rw [get_set_shard_of_ne _ hsh2]
            exact hv3.2
      · rw [shard_bump_sbl]
        split
        case isTrue hz =>
          refine nodup_append_singleton hinv.2.1 ?_
          intro hmem
          have := (hinv.1 _ hmem).2
          omega
        case isFalse hz => exact hinv.2.1
      · intro sl hsl
        rw [shard_bump_shards] at hsl
        rcases mem_set_shard hsl with hm1 | hm1
        · exact hinv.2.2 sl hm1
        · rw [hm1]
          exact add_candidate_nodup (hinv.2.2 _ (get_shard_mem hrange))

theorem bounds_node_mem : ∀ (nodes : List (Nat × node_load))
    (acc : load_t × load_t × Option Nat) (t : Nat),
    (nodes.foldl bounds_step acc).2.2 = some t →
    acc.2.2 = some t ∨ t ∈ nodes.map Prod.fst := by
  intro nodes
  induction nodes with
  | nil => intro acc t h; exact Or.inl h
  | cons p ps ih =>
    intro acc t h
    rw [List.foldl_cons] at h
    rcases ih _ t h with h1 | h1
    · unfold bounds_step at h1
      simp only at h1
      split at h1
      · injection h1 with h1
        exact Or.inr (by simp [h1])
      · exact Or.inl h1
    · exact Or.inr (List.mem_cons_of_mem _ h1)

theorem init_good {s : snapshot} {dc : Nat} {cfg : plan_cfg} {st0 : loop_state}
    (h : init_of s dc = .ok (some (cfg, st0))) : good_state cfg st0 := by
  unfold init_of at h
  cases hA : select_nodes s dc with
  | error e => rw [hA] at h; exact Except.noConfusion h
  | ok n1 =>
  rw [hA] at h
  simp only [] at h
  cases hB : count_node_tablets s n1 with
  | error e => rw [hB] at h; exact Except.noConfusion h
  | ok n2 =>
  rw [hB] at h
  simp only [] at h
  split at h
  case isTrue => simp at h
  case isFalse hbal =>
  cases hC : (compute_load_bounds n2).2.2 with
  | none => rw [hC] at h; simp at h
  | some target =>
  rw [hC] at h
  simp only [] at h
  cases hD : count_shard_tablets s n2 with
  | none => rw [hD] at h; simp at h
  | some n3 =>
  rw [hD] at h
  simp only [Except.ok.injEq, Option.some.injEq, Prod.mk.injEq] at h
  obtain ⟨hcfg, hst⟩ := h
  subst hcfg
  subst hst
  obtain ⟨hkeys1, hQ1⟩ := select_nodes_good hA
  have hB2 : List.foldlM count_node_step n1 (replica_triples s) = .ok n2 := hB
  have hD2 : (replica_triples s).foldl count_shard_step n2 = n3 := by
    unfold count_shard_tablets at hD
    split at hD
    · exact Option.noConfusion hD
    · exact Option.some.inj hD
  have hkeys2 : n2.map Prod.fst = n1.map Prod.fst := count_node_fold_keys hB2
  have hkeys3 : n3.map Prod.fst = n2.map Prod.fst := by
    rw [← hD2]
    exact count_shard_fold_keys _ _
  have hnodup2 : (n2.map Prod.fst).Nodup := by rw [hkeys2]; exact hkeys1
  have hnodup3 : (n3.map Prod.fst).Nodup := by rw [hkeys3]; exact hnodup2
  have htmem : target ∈ n2.map Prod.fst := by
    rcases bounds_node_mem n2 (⟨0, 1⟩, ⟨0, 1⟩, none) target hC with h1 | h1
    · simp at h1
    · exact h1
  have hent2 : ∀ h nl1, lookupN n1 h = some nl1 → ∃ nl2, lookupN n2 h = some nl2 ∧
      nl2.tablet_count = cnt_for (replica_triples s) h ∧
      nl2.shard_count = nl1.shard_count ∧ nl2.shards = nl1.shards ∧
      nl2.shards_by_load = nl1.shards_by_load := by
    intro h nl1 hl
    obtain ⟨nl2, a1, a2, a3, a4, a5⟩ := count_node_fold_spec hB2 h nl1 hl
    have hq : nodeQ nl1 := hQ1 (h, nl1) (mem_of_lookupN hl)
    refine ⟨nl2, a1, ?_, a3, a4, a5⟩
    rw [a2, hq.1]
    exact Nat.zero_add _
  have hlook1 : ∀ hx : Nat, hx ∈ n2.map Prod.fst →
      ∃ nl1, lookupN n1 hx = some nl1 := by
    intro hx hmx
    rw [hkeys2] at hmx
    have hsome := lookupN_isSome_of_mem_keys hmx
    cases hl1 : lookupN n1 hx with
    | none => rw [hl1] at hsome; simp at hsome
    | some nl1 => exact ⟨nl1, rfl⟩
  have hbound2 : ∀ t ∈ replica_triples s, ∀ nl, lookupN n2 t.2.2.host = some nl →
      t.2.2.shard < nl.shards.length := by
    intro t ht nl2 hl2
    have hm2 : (t.2.2.host, nl2) ∈ n2 := mem_of_lookupN hl2
    have hm3 : t.2.2.host ∈ n2.map Prod.fst := List.mem_map_of_mem Prod.fst hm2
    obtain ⟨nl1, hl1⟩ := hlook1 _ hm3
    have hsc := count_node_fold_bounds hB2 t ht nl1 hl1
    have hq : nodeQ nl1 := hQ1 (t.2.2.host, nl1) (mem_of_lookupN hl1)
    obtain ⟨nl2x, b1, b2, b3, b4, b5⟩ := hent2 _ _ hl1
    rw [hl2] at b1
    injection b1 with b1
    subst b1
    rw [b4, hq.2.2.2.1]
    exact hsc
  have hinv2 : ∀ p ∈ n2, shardInv p.2 := by
    intro p hp
    have hl2 : lookupN n2 p.1 = some p.2 := lookupN_of_mem_nodup hnodup2 hp
    have hm3 : p.1 ∈ n2.map Prod.fst := List.mem_map_of_mem Prod.fst hp
    obtain ⟨nl1, hl1⟩ := hlook1 _ hm3
    have hq : nodeQ nl1 := hQ1 (p.1, nl1) (mem_of_lookupN hl1)
    obtain ⟨nl2x, b1, b2, b3, b4, b5⟩ := hent2 _ _ hl1
    rw [hl2] at b1
    injection b1 with b1
    subst b1
    refine ⟨?_, ?_, ?_⟩
    · intro sh hsh
      rw [b5, hq.2.1] at hsh
      simp at hsh
    · rw [b5, hq.2.1]
      exact List.nodup_nil
    · intro sl hsl
      rw [b4] at hsl
      rw [hq.2.2.1 sl hsl]
      exact List.nodup_nil
  have hinv3 : ∀ p ∈ n3, shardInv p.2 := by
    rw [← hD2]
    exact count_shard_fold_inv _ _ hbound2 hinv2
  have hcnt3 : ∀ p ∈ n3, p.2.tablet_count = sum_shard_tc p.2.shards := by
    intro p hp
    have hl3 : lookupN n3 p.1 = some p.2 := lookupN_of_mem_nodup hnodup3 hp
    have hm3 : p.1 ∈ n2.map Prod.fst := by
      rw [← hkeys3]
      exact List.mem_map_of_mem Prod.fst hp
    obtain ⟨nl1, hl1⟩ := hlook1 _ hm3
    have hq : nodeQ nl1 := hQ1 (p.1, nl1) (mem_of_lookupN hl1)
    obtain ⟨nl2, b1, b2, b3, b4, b5⟩ := hent2 _ _ hl1
    obtain ⟨nl3, c1, c2, c3, c4, c5⟩ := count_shard_fold_spec (replica_triples s) n2
      hbound2 p.1 nl2 b1
    rw [hD2] at c1
    rw [hl3] at c1
    injection c1 with c1
    subst c1
    rw [c2, b2, c5, b4, sum_empty_shards hq.2.2.1]
    omega
  refine ⟨?_, ?_, ?_, ?_, ?_, ?_, ?_, ?_, ?_, ?_, ?_, ?_, ?_⟩
  · exact hnodup3
  · show (lookupN n3 target).isSome = true
    apply lookupN_isSome_of_mem_keys
    rw [hkeys3]
    exact htmem
  · intro hx hh
    have hh2 : hx ∈ n3.map Prod.fst := hh
    exact lookupN_isSome_of_mem_keys hh2
  · intro p hp sh hsh
    exact (hinv3 p hp).1 sh hsh
  · intro p hp
    exact (hinv3 p hp).2.1
  · intro p hp
    exact (hinv3 p hp).2.2
  · intro p hp
    constructor
    · intro _
      exact hcnt3 p hp
    · intro _
      have : p.2.tablet_count = sum_shard_tc p.2.shards + ([] : List tablet_migration_info).length := by
        rw [hcnt3 p hp]
        rfl
      exact this
  · intro m hm
    exact absurd hm (List.not_mem_nil m)
  · exact List.Pairwise.nil
  · intro m hm
    exact absurd hm (List.not_mem_nil m)
  · intro m hm
    exact absurd hm (List.not_mem_nil m)
  · intro e he
    exact absurd he (List.not_mem_nil e)
  · exact Nat.zero_le _

theorem init_of_shape {s : snapshot} {dc : Nat} {cfg : plan_cfg} {st0 : loop_state}
    (h : init_of s dc = .ok (some (cfg, st0))) :
    cfg.snap = s ∧ cfg.dc = dc ∧ st0.plan = [] := by
  unfold init_of at h
  cases hA : select_nodes s dc with
  | error e => rw [hA] at h; exact Except.noConfusion h
  | ok n1 =>
  rw [hA] at h
  simp only [] at h
  cases hB : count_node_tablets s n1 with
  | error e => rw [hB] at h; exact Except.noConfusion h
  | ok n2 =>
  rw [hB] at h
  simp only [] at h
  split at h
  case isTrue => simp at h
  case isFalse hbal =>
  cases hC : (compute_load_bounds n2).2.2 with
  | none => rw [hC] at h; simp at h
  | some target =>
  rw [hC] at h
  simp only [] at h
  cases hD : count_shard_tablets s n2 with
  | none => rw [hD] at h; simp at h
  | some n3 =>
  rw [hD] at h
  simp only [Except.ok.injEq, Option.some.injEq, Prod.mk.injEq] at h
  obtain ⟨hcfg, hst⟩ := h
  subst hcfg
  subst hst
  exact ⟨rfl, rfl, rfl⟩

theorem batch_size_of_eq {s : snapshot} {dc : Nat} {cfg : plan_cfg} {st0 : loop_state}
    (h : init_of s dc = .ok (some (cfg, st0))) :
    batch_size_of s dc = cfg.batch_size := by
  unfold batch_size_of
  rw [h]

theorem target_of_eq {s : snapshot} {dc : Nat} {cfg : plan_cfg} {st0 : loop_state}
    (h : init_of s dc = .ok (some (cfg, st0))) :
    target_of s dc = cfg.target := by
  unfold target_of
  rw [h]

theorem good_step_once {cfg : plan_cfg} {st : loop_state} (g : good_state cfg st) :
    good_state cfg (step_once cfg st) := by
  unfold step_once
  cases hstep : step_fn cfg st with
  | stop st2 =>
    rw [step_stop_eq hstep]
    exact g
  | next st2 => exact (step_next_good g hstep).1

theorem good_step_iter {cfg : plan_cfg} : ∀ (k : Nat) {st : loop_state},
    good_state cfg st → good_state cfg (step_iter cfg k st) := by
  intro k
  induction k with
  | zero => intro st g; exact g
  | succ n ih =>
    intro st g
    rw [step_iter]
    exact ih (good_step_once g)

theorem make_plan_full_some_good {s : snapshot} {dc : Nat} {st : loop_state}
    (h : make_plan_full s dc = .ok (some st)) :
    ∃ cfg st0, init_of s dc = .ok (some (cfg, st0)) ∧ good_state cfg st := by
  unfold make_plan_full at h
  cases hinit : init_of s dc with
  | error e => rw [hinit] at h; exact Except.noConfusion h
  | ok o =>
    rw [hinit] at h
    cases o with
    | none => simp at h
    | some p =>
      obtain ⟨cfg, st0⟩ := p
      simp only [] at h
      have g0 := init_good hinit
      obtain ⟨st2, hrun, hg2⟩ :=
        run_loop_good (state_measure st0 + 1) st0 g0 (Nat.lt_succ_self _)
      rw [hrun] at h
      simp only [Except.ok.injEq, Option.some.injEq] at h
      subst h
      exact ⟨cfg, st0, rfl, hg2⟩

/-- C1: Replica non-collision — for every migration `{t, src, dst}` in a plan
returned by the per-DC planner, `dst.host` does not occur among the hosts of
tablet `t`'s replica list in the input snapshot. -/
theorem C1_replica_non_collision {s : snapshot} {dc : Nat}
    {plan : List tablet_migration_info} (h : make_plan_dc s dc = .ok plan) :
    ∀ m ∈ plan, ∀ r ∈ (tablet_info_of s m.tablet).replicas, r.host ≠ m.dst.host := by
  unfold make_plan_dc at h
  cases hfull : make_plan_full s dc with
  | error e => rw [hfull] at h; exact Except.noConfusion h
  | ok o =>
    rw [hfull] at h
    cases o with
    | none =>
      simp only [Except.ok.injEq] at h
      subst h
      intro m hm
      exact absurd hm (List.not_mem_nil m)
    | some st =>
      simp only [Except.ok.injEq] at h
      subst h
      obtain ⟨cfg, st0, hinit, hg⟩ := make_plan_full_some_good hfull
      obtain ⟨hsnap, hdc, hpl⟩ := init_of_shape hinit
      intro m hm r hr
      have hd := hg.plan_dst m hm
      rw [hd.1]
      apply hd.2 r
      rw [← hsnap] at hr
      exact hr

theorem C1_witness :
    (⟨0, 0⟩ : tablet_replica).host ≠
      (⟨⟨0, 0⟩, ⟨0, 0⟩, ⟨2, 0⟩⟩ : tablet_migration_info).dst.host :=
  @C1_replica_non_collision ex2 7
    [⟨⟨0, 0⟩, ⟨0, 0⟩, ⟨2, 0⟩⟩, ⟨⟨0, 0⟩, ⟨1, 0⟩, ⟨2, 1⟩⟩] (by rfl)
    ⟨⟨0, 0⟩, ⟨0, 0⟩, ⟨2, 0⟩⟩ (by decide) ⟨0, 0⟩ (by decide)

/-- C2, counterexample to "each tablet appears in at most one migration of
that plan": on `ex2` the planner emits tablet `(0, 0)` twice in one plan, once
from each of its two overloaded replica holders (the candidate erasure at line
349 is per-shard, and `has_replica_on_target` reads the immutable input
snapshot, so a second source node can offer the same tablet again). -/
theorem C2_counterexample :
    make_plan_dc ex2 7 =
      .ok [⟨⟨0, 0⟩, ⟨0, 0⟩, ⟨2, 0⟩⟩, ⟨⟨0, 0⟩, ⟨1, 0⟩, ⟨2, 1⟩⟩] ∧
    (⟨⟨0, 0⟩, ⟨0, 0⟩, ⟨2, 0⟩⟩ : tablet_migration_info).tablet =
      (⟨⟨0, 0⟩, ⟨1, 0⟩, ⟨2, 1⟩⟩ : tablet_migration_info).tablet :=
  ⟨by rfl, rfl⟩

/-- C2 (amended): in every plan returned by a single per-DC planning call the
`{tablet, src}` pairs of the emitted migrations are pairwise distinct.  (The
claim's stronger half — each tablet in at most one migration — is refuted by
`C2_counterexample`.) -/
theorem C2_tablet_src_pairs_distinct {s : snapshot} {dc : Nat}
    {plan : List tablet_migration_info} (h : make_plan_dc s dc = .ok plan) :
    List.Pairwise (fun a b => ¬ (a.tablet = b.tablet ∧ a.src = b.src)) plan := by
  unfold make_plan_dc at h
  cases hfull : make_plan_full s dc with
  | error e => rw [hfull] at h; exact Except.noConfusion h
  | ok o =>
    rw [hfull] at h
    cases o with
    | none =>
      simp only [Except.ok.injEq] at h
      subst h
      exact List.Pairwise.nil
    | some st =>
      simp only [Except.ok.injEq] at h
      subst h
      obtain ⟨cfg, st0, hinit, hg⟩ := make_plan_full_some_good hfull
      exact hg.plan_pairs

theorem C2_witness :
    List.Pairwise (fun a b => ¬ (a.tablet = b.tablet ∧ a.src = b.src))
      ([⟨⟨0, 0⟩, ⟨0, 0⟩, ⟨2, 0⟩⟩, ⟨⟨0, 0⟩, ⟨1, 0⟩, ⟨2, 1⟩⟩] :
        List tablet_migration_info) :=
  @C2_tablet_src_pairs_distinct ex2 7
    [⟨⟨0, 0⟩, ⟨0, 0⟩, ⟨2, 0⟩⟩, ⟨⟨0, 0⟩, ⟨1, 0⟩, ⟨2, 1⟩⟩] (by rfl)

/-- C3: Load-monotone — at every emission of the selection loop, the source's
post-move average load `(src.tablet_count - 1) / src.shard_count` is at least
the target's post-move average load `(target.tablet_count + 1) /
target.shard_count` (recorded in the emission trace; `1 ≤ src_tc` makes the
truncated `Nat` subtraction coincide with the machine subtraction). -/
theorem C3_load_monotone (s : snapshot) (dc : Nat) :
    ∀ e ∈ trace_of s dc, 1 ≤ e.src_tc ∧
      load_le (get_avg_load (e.tgt_tc + 1) e.tgt_sc)
        (get_avg_load (e.src_tc - 1) e.src_sc) := by
  intro e he
  unfold trace_of at he
  cases hfull : make_plan_full s dc with
  | error e2 =>
    rw [hfull] at he
    simp at he
  | ok o =>
    rw [hfull] at he
    cases o with
    | none => simp at he
    | some st =>
      have he2 : e ∈ st.trace := he
      obtain ⟨cfg, st0, hinit, hg⟩ := make_plan_full_some_good hfull
      exact hg.trace_ok e he2

theorem C3_witness :
    1 ≤ (⟨⟨⟨0, 0⟩, ⟨0, 0⟩, ⟨1, 0⟩⟩, 2, 1, 0, 2⟩ : emit_rec).src_tc ∧
      load_le
        (get_avg_load ((⟨⟨⟨0, 0⟩, ⟨0, 0⟩, ⟨1, 0⟩⟩, 2, 1, 0, 2⟩ : emit_rec).tgt_tc + 1)
          (⟨⟨⟨0, 0⟩, ⟨0, 0⟩, ⟨1, 0⟩⟩, 2, 1, 0, 2⟩ : emit_rec).tgt_sc)
        (get_avg_load ((⟨⟨⟨0, 0⟩, ⟨0, 0⟩, ⟨1, 0⟩⟩, 2, 1, 0, 2⟩ : emit_rec).src_tc - 1)
          (⟨⟨⟨0, 0⟩, ⟨0, 0⟩, ⟨1, 0⟩⟩, 2, 1, 0, 2⟩ : emit_rec).src_sc) :=
  C3_load_monotone ex4 7 ⟨⟨⟨0, 0⟩, ⟨0, 0⟩, ⟨1, 0⟩⟩, 2, 1, 0, 2⟩ (by decide)

/-- C5, counterexample to "node-level `tablet_count` equals the sum of the
per-shard `tablet_count`s after every iteration": after the loop on `ex5` the
target node's `tablet_count` was incremented once per emission (line 391) but
no per-shard count of the target was ever updated. -/
theorem C5_counterexample :
    ∃ p ∈ nodes_after ex5 7 10, p.2.tablet_count ≠ sum_shard_tc p.2.shards := by
  decide

/-- C5 (amended): after every iteration of the selection loop, every non-target
node satisfies `tablet_count = Σ shards[s].tablet_count`, while the target node
satisfies `tablet_count = Σ shards[s].tablet_count + |plan so far|` — the
emission bookkeeping increments the target's node-level count without touching
any of its shard-level counts. -/
theorem C5_node_count_invariant (s : snapshot) (dc k : Nat) :
    ∀ p ∈ nodes_after s dc k,
      (p.1 ≠ target_of s dc → p.2.tablet_count = sum_shard_tc p.2.shards) ∧
      (p.1 = target_of s dc →
        p.2.tablet_count = sum_shard_tc p.2.shards + (plan_after s dc k).length) := by
  intro p hp
  unfold nodes_after at hp
  unfold plan_after target_of
  cases hinit : init_of s dc with
  | error e =>
    rw [hinit] at hp
    simp at hp
  | ok o =>
    rw [hinit] at hp
    cases o with
    | none => simp at hp
    | some q =>
      obtain ⟨cfg, st0⟩ := q
      have hg := good_step_iter k (init_good hinit)
      have hp2 : p ∈ (step_iter cfg k st0).nodes := hp
      exact hg.count_inv p hp2

theorem C5_witness :
    ((1, (⟨2, 2, [], [⟨0, []⟩, ⟨0, []⟩]⟩ : node_load)).1 ≠ target_of ex5 7 →
      (1, (⟨2, 2, [], [⟨0, []⟩, ⟨0, []⟩]⟩ : node_load)).2.tablet_count =
        sum_shard_tc (1, (⟨2, 2, [], [⟨0, []⟩, ⟨0, []⟩]⟩ : node_load)).2.shards) ∧
    ((1, (⟨2, 2, [], [⟨0, []⟩, ⟨0, []⟩]⟩ : node_load)).1 = target_of ex5 7 →
      (1, (⟨2, 2, [], [⟨0, []⟩, ⟨0, []⟩]⟩ : node_load)).2.tablet_count =
        sum_shard_tc (1, (⟨2, 2, [], [⟨0, []⟩, ⟨0, []⟩]⟩ : node_load)).2.shards +
          (plan_after ex5 7 10).length) :=
  C5_node_count_invariant ex5 7 10 (1, ⟨2, 2, [], [⟨0, []⟩, ⟨0, []⟩]⟩) (by decide)

/-- C4: Rack diversity non-regression — every emitted migration whose source
and target racks differ satisfies `rack_load[target.rack] + 1 ≤ max(rack_load)`
over the tablet's in-DC replica racks. -/
theorem C4_rack_diversity {s : snapshot} {dc : Nat}
    {plan : List tablet_migration_info} (h : make_plan_dc s dc = .ok plan) :
    ∀ m ∈ plan, rack_of s m.dst.host ≠ rack_of s m.src.host →
      rack_count (rack_load_of s dc m.tablet) (rack_of s m.dst.host) + 1
        ≤ max_rack_load (rack_load_of s dc m.tablet) := by
  unfold make_plan_dc at h
  cases hfull : make_plan_full s dc with
  | error e => rw [hfull] at h; exact Except.noConfusion h
  | ok o =>
    rw [hfull] at h
    cases o with
    | none =>
      simp only [Except.ok.injEq] at h
      subst h
      intro m hm
      exact absurd hm (List.not_mem_nil m)
    | some st =>
      simp only [Except.ok.injEq] at h
      subst h
      obtain ⟨cfg, st0, hinit, hg⟩ := make_plan_full_some_good hfull
      obtain ⟨hsnap, hdc, hpl⟩ := init_of_shape hinit
      subst hsnap
      subst hdc
      intro m hm hne
      exact hg.plan_rack m hm hne

theorem C4_witness :
    rack_count
        (rack_load_of ex4 7 (⟨⟨0, 0⟩, ⟨0, 0⟩, ⟨1, 0⟩⟩ : tablet_migration_info).tablet)
        (rack_of ex4 (⟨⟨0, 0⟩, ⟨0, 0⟩, ⟨1, 0⟩⟩ : tablet_migration_info).dst.host) + 1
      ≤ max_rack_load
        (rack_load_of ex4 7 (⟨⟨0, 0⟩, ⟨0, 0⟩, ⟨1, 0⟩⟩ : tablet_migration_info).tablet) :=
  @C4_rack_diversity ex4 7 [⟨⟨0, 0⟩, ⟨0, 0⟩, ⟨1, 0⟩⟩] (by rfl)
    ⟨⟨0, 0⟩, ⟨0, 0⟩, ⟨1, 0⟩⟩ (by decide) (by decide)

/-- C6: Bounded plan size — a per-DC plan holds at most `batch_size`
migrations, where `batch_size` is the shard count of the selected target
node. -/
theorem C6_bounded_plan_size {s : snapshot} {dc : Nat}
    {plan : List tablet_migration_info} (h : make_plan_dc s dc = .ok plan) :
    plan.length ≤ batch_size_of s dc := by
  unfold make_plan_dc at h
  cases hfull : make_plan_full s dc with
  | error e => rw [hfull] at h; exact Except.noConfusion h
  | ok o =>
    rw [hfull] at h
    cases o with
    | none =>
      simp only [Except.ok.injEq] at h
      subst h
      exact Nat.zero_le _
    | some st =>
      simp only [Except.ok.injEq] at h
      subst h
      obtain ⟨cfg, st0, hinit, hg⟩ := make_plan_full_some_good hfull
      rw [batch_size_of_eq hinit]
      exact hg.plan_len

theorem C6_witness :
    ([⟨⟨0, 0⟩, ⟨0, 0⟩, ⟨2, 0⟩⟩, ⟨⟨0, 0⟩, ⟨1, 0⟩, ⟨2, 1⟩⟩] :
      List tablet_migration_info).length ≤ batch_size_of ex2 7 :=
  @C6_bounded_plan_size ex2 7
    [⟨⟨0, 0⟩, ⟨0, 0⟩, ⟨2, 0⟩⟩, ⟨⟨0, 0⟩, ⟨1, 0⟩, ⟨2, 1⟩⟩] (by rfl)

theorem init_of_no_transitions {s : snapshot} {dc : Nat} {cfg : plan_cfg}
    {st0 : loop_state} (h : init_of s dc = .ok (some (cfg, st0))) :
    has_transitions s = false := by
  unfold init_of at h
  cases hA : select_nodes s dc with
  | error e => rw [hA] at h; exact Except.noConfusion h
  | ok n1 =>
  rw [hA] at h
  simp only [] at h
  cases hB : count_node_tablets s n1 with
  | error e => rw [hB] at h; exact Except.noConfusion h
  | ok n2 =>
  rw [hB] at h
  simp only [] at h
  split at h
  case isTrue => simp at h
  case isFalse hbal =>
  cases hC : (compute_load_bounds n2).2.2 with
  | none => rw [hC] at h; simp at h
  | some target =>
  rw [hC] at h
  simp only [] at h
  cases hD : count_shard_tablets s n2 with
  | none => rw [hD] at h; simp at h
  | some n3 =>
  unfold count_shard_tablets at hD
  split at hD
  case isTrue => exact Option.noConfusion hD
  case isFalse h2 =>
  cases hb : has_transitions s with
  | false => rfl
  | true => exact absurd hb h2

theorem make_plan_dc_of_init_none {s : snapshot} {dc : Nat}
    (h : init_of s dc = .ok none) : make_plan_dc s dc = .ok [] := by
  unfold make_plan_dc make_plan_full
  rw [h]

theorem make_plan_dc_of_init_error {s : snapshot} {dc : Nat} {e : plan_error}
    (h : init_of s dc = .error e) : make_plan_dc s dc = .error e := by
  unfold make_plan_dc make_plan_full
  rw [h]

theorem make_plan_dc_of_init_some {s : snapshot} {dc : Nat} {cfg : plan_cfg}
    {st0 : loop_state} (h : init_of s dc = .ok (some (cfg, st0))) :
    ∃ st2, run_loop cfg (state_measure st0 + 1) st0 = some st2 ∧
      make_plan_dc s dc = .ok st2.plan := by
  have g0 := init_good h
  obtain ⟨st2, hrun, _⟩ := run_loop_good _ st0 g0 (Nat.lt_succ_self _)
  refine ⟨st2, hrun, ?_⟩
  unfold make_plan_dc make_plan_full
  rw [h]
  simp only []
  rw [hrun]

/-- C8: Pending transitions block planning — when some table has a non-empty
transition set, any plan the per-DC planner returns is empty (a soft failure:
the call still succeeds). -/
theorem C8_transitions_empty {s : snapshot} {dc : Nat}
    {plan : List tablet_migration_info} (ht : has_transitions s = true)
    (h : make_plan_dc s dc = .ok plan) : plan = [] := by
  cases hinit : init_of s dc with
  | error e =>
    rw [make_plan_dc_of_init_error hinit] at h
    exact Except.noConfusion h
  | ok o =>
    cases o with
    | none =>
      rw [make_plan_dc_of_init_none hinit] at h
      injection h with h2
      exact h2.symm
    | some p =>
      obtain ⟨cfg, st0⟩ := p
      rw [init_of_no_transitions hinit] at ht
      exact Bool.noConfusion ht

theorem C8_witness :
    has_transitions exTr = true ∧ ([] : List tablet_migration_info) = [] :=
  ⟨by rfl, @C8_transitions_empty exTr 7 [] (by rfl) (by rfl)⟩

theorem select_step_error_kind {dc : Nat} {acc : List (Nat × node_load)}
    {nd : node_desc} {e : plan_error}
    (h : select_step dc acc nd = .error e) : e = .invalid_topology := by
  unfold select_step at h
  split at h
  case isTrue =>
    split at h
    case isTrue =>
      injection h with h2
      exact h2.symm
    case isFalse => exact Except.noConfusion h
  case isFalse => exact Except.noConfusion h

theorem count_node_step_error_kind {acc : List (Nat × node_load)}
    {t : Nat × Nat × tablet_replica} {e : plan_error}
    (h : count_node_step acc t = .error e) : e = .invalid_topology := by
  unfold count_node_step at h
  split at h
  case isTrue =>
    simp only [] at h
    split at h
    case isTrue =>
      injection h with h2
      exact h2.symm
    case isFalse => exact Except.noConfusion h
  case isFalse => exact Except.noConfusion h

theorem foldlM_error_kind {α β : Type} {f : β → α → Except plan_error β}
    (hf : ∀ b a e, f b a = .error e → e = .invalid_topology) :
    ∀ (l : List α) (acc : β) (e : plan_error),
      List.foldlM f acc l = .error e → e = .invalid_topology := by
  intro l
  induction l with
  | nil =>
    intro acc e h
    rw [List.foldlM_nil] at h
    exact Except.noConfusion h
  | cons a as ih =>
    intro acc e h
    rw [List.foldlM_cons] at h
    cases hfa : f acc a with
    | error e2 =>
      rw [hfa] at h
      have h2 : (Except.error e2 : Except plan_error β) = .error e := h
      injection h2 with h2
      rw [← h2]
      exact hf acc a e2 hfa
    | ok acc2 =>
      rw [hfa] at h
      exact ih acc2 e h

theorem select_nodes_error_kind {s : snapshot} {dc : Nat} {e : plan_error}
    (h : select_nodes s dc = .error e) : e = .invalid_topology :=
  foldlM_error_kind (fun _ _ _ he => select_step_error_kind he) _ _ _ h

theorem count_node_tablets_error_kind {s : snapshot} {n1 : List (Nat × node_load)}
    {e : plan_error} (h : count_node_tablets s n1 = .error e) :
    e = .invalid_topology :=
  foldlM_error_kind (fun _ _ _ he => count_node_step_error_kind he) _ _ _ h

theorem init_of_error_kind {s : snapshot} {dc : Nat} {e : plan_error}
    (h : init_of s dc = .error e) : e = .invalid_topology := by
  unfold init_of at h
  cases hA : select_nodes s dc with
  | error e2 =>
    rw [hA] at h
    simp only [] at h
    injection h with h2
    rw [← h2]
    exact select_nodes_error_kind hA
  | ok n1 =>
    rw [hA] at h
    simp only [] at h
    cases hB : count_node_tablets s n1 with
    | error e2 =>
      rw [hB] at h
      simp only [] at h
      injection h with h2
      rw [← h2]
      exact count_node_tablets_error_kind hB
    | ok n2 =>
      rw [hB] at h
      simp only [] at h
      split at h
      case isTrue => exact Except.noConfusion h
      case isFalse =>
      split at h
      · exact Except.noConfusion h
      · split at h
        · exact Except.noConfusion h
        · exact Except.noConfusion h

theorem sel_error_bad {dc : Nat} : ∀ (l : List node_desc)
    (acc : List (Nat × node_load)) (e : plan_error),
    List.foldlM (select_step dc) acc l = .error e →
    ∃ nd ∈ l, nd.is_normal = true ∧ nd.dc = dc ∧ nd.shard_count = 0 := by
  intro l
  induction l with
  | nil =>
    intro acc e h
    rw [List.foldlM_nil] at h
    exact Except.noConfusion h
  | cons nd nds ih =>
    intro acc e h
    rw [List.foldlM_cons] at h
    cases hfa : select_step dc acc nd with
    | error e2 =>
      unfold select_step at hfa
      split at hfa
      case isFalse => exact Except.noConfusion hfa
      case isTrue hcond =>
        split at hfa
        case isFalse => exact Except.noConfusion hfa
        case isTrue hsc =>
          exact ⟨nd, List.mem_cons_self _ _, hcond.1, hcond.2, hsc⟩
    | ok acc2 =>
      rw [hfa] at h
      obtain ⟨nd2, hmem, hrest⟩ := ih acc2 e h
      exact ⟨nd2, List.mem_cons_of_mem _ hmem, hrest⟩

theorem sel_ok_no_bad {dc : Nat} : ∀ (l : List node_desc)
    (acc res : List (Nat × node_load)),
    List.foldlM (select_step dc) acc l = .ok res →
    ∀ nd ∈ l, ¬ (nd.is_normal = true ∧ nd.dc = dc ∧ nd.shard_count = 0) := by
  intro l
  induction l with
  | nil => intro acc res _ nd hmem; simp at hmem
  | cons nd0 nds ih =>
    intro acc res h nd hmem hbad
    rw [List.foldlM_cons] at h
    cases hfa : select_step dc acc nd0 with
    | error e2 =>
      rw [hfa] at h
      exact Except.noConfusion
        (show (Except.error e2 : Except plan_error _) = .ok res from h)
    | ok acc2 =>
      rw [hfa] at h
      rcases List.mem_cons.mp hmem with h1 | h1
      · subst h1
        unfold select_step at hfa
        split at hfa
        case isFalse hcond => exact hcond ⟨hbad.1, hbad.2.1⟩
        case isTrue hcond =>
          split at hfa
          case isTrue => exact Except.noConfusion hfa
          case isFalse hsc => exact hsc hbad.2.2
      · exact ih acc2 res h nd h1 hbad

theorem selA_error_iff {s : snapshot} {dc : Nat} :
    (∃ e, select_nodes s dc = .error e) ↔ zero_shard_cond s dc := by
  constructor
  · rintro ⟨e, he⟩
    exact sel_error_bad _ _ _ he
  · intro hz
    cases hres : select_nodes s dc with
    | error e => exact ⟨e, rfl⟩
    | ok n1 =>
      obtain ⟨nd, hmem, hn, hd, hs⟩ := hz
      exact absurd ⟨hn, hd, hs⟩ (sel_ok_no_bad _ _ _ hres nd hmem)

theorem cnb_error_bad {n1 : List (Nat × node_load)} :
    ∀ (l : List (Nat × Nat × tablet_replica)) (acc : List (Nat × node_load))
      (e : plan_error),
    (∀ h nl, lookupN acc h = some nl →
      ∃ nl1, lookupN n1 h = some nl1 ∧ nl1.shard_count = nl.shard_count) →
    List.foldlM count_node_step acc l = .error e →
    ∃ t ∈ l, ∃ nl1, lookupN n1 t.2.2.host = some nl1 ∧
      nl1.shard_count ≤ t.2.2.shard := by
  intro l
  induction l with
  | nil =>
    intro acc e _ h
    rw [List.foldlM_nil] at h
    exact Except.noConfusion h
  | cons t ts ih =>
    intro acc e hSC h
    rw [List.foldlM_cons] at h
    cases hfa : count_node_step acc t with
    | error e2 =>
      unfold count_node_step at hfa
      split at hfa
      case isFalse => exact Except.noConfusion hfa
      case isTrue hcont =>
        simp only [] at hfa
        split at hfa
        case isFalse => exact Except.noConfusion hfa
        case isTrue hchk =>
          cases hl : lookupN acc t.2.2.host with
          | none =>
            unfold containsN at hcont
            rw [hl] at hcont
            simp at hcont
          | some nl =>
            rw [lookupN_updateN_self
              (fun nl => { nl with tablet_count := nl.tablet_count + 1 }) hl,
              Option.getD_some] at hchk
            obtain ⟨nl1, h1, h2⟩ := hSC _ _ hl
            refine ⟨t, List.mem_cons_self _ _, nl1, h1, ?_⟩
            have hchk2 : nl.shard_count ≤ t.2.2.shard := hchk
            omega
    | ok acc2 =>
      rw [hfa] at h
      have h2 : List.foldlM count_node_step acc2 ts = .error e := h
      have hSC2 : ∀ hh nl, lookupN acc2 hh = some nl →
          ∃ nl1, lookupN n1 hh = some nl1 ∧ nl1.shard_count = nl.shard_count := by
        intro hh nl hl2
        rw [count_node_step_lookup hfa hh] at hl2
        cases hl0 : lookupN acc hh with
        | none => rw [hl0] at hl2; simp at hl2
        | some nl0 =>
          rw [hl0] at hl2
          rw [Option.map_some'] at hl2
          injection hl2 with hl2
          obtain ⟨nl1, hq1, hq2⟩ := hSC _ _ hl0
          refine ⟨nl1, hq1, ?_⟩
          rw [← hl2]
          split
          · exact hq2
          · exact hq2
      obtain ⟨t2, hmem, hrest⟩ := ih acc2 e hSC2 h2
      exact ⟨t2, List.mem_cons_of_mem _ hmem, hrest⟩

theorem countB_error_iff {s : snapshot} {n1 : List (Nat × node_load)} :
    (∃ e, count_node_tablets s n1 = .error e) ↔ bad_replica_cond s n1 := by
  constructor
  · rintro ⟨e, he⟩
    have he2 : List.foldlM count_node_step n1 (replica_triples s) = .error e := he
    exact cnb_error_bad _ _ _ (fun h nl hl => ⟨nl, hl, rfl⟩) he2
  · intro hbad
    cases hres : count_node_tablets s n1 with
    | error e => exact ⟨e, rfl⟩
    | ok n2 =>
      obtain ⟨t, hmem, nl, hl, hsc⟩ := hbad
      have := count_node_fold_bounds
        (show List.foldlM count_node_step n1 (replica_triples s) = .ok n2 from hres)
        t hmem nl hl
      omega

theorem init_error_iff {s : snapshot} {dc : Nat} :
    (∃ e, init_of s dc = .error e) ↔
      ((∃ e, select_nodes s dc = .error e) ∨
        ∃ n1, select_nodes s dc = .ok n1 ∧ ∃ e, count_node_tablets s n1 = .error e) := by
  constructor
  · rintro ⟨e, he⟩
    unfold init_of at he
    cases hA : select_nodes s dc with
    | error e2 => exact Or.inl ⟨e2, rfl⟩
    | ok n1 =>
      rw [hA] at he
      simp only [] at he
      cases hB : count_node_tablets s n1 with
      | error e2 => exact Or.inr ⟨n1, rfl, e2, hB⟩
      | ok n2 =>
        rw [hB] at he
        simp only [] at he
        split at he
        case isTrue => exact Except.noConfusion he
        case isFalse =>
        split at he
        · exact Except.noConfusion he
        · split at he
          · exact Except.noConfusion he
          · exact Except.noConfusion he
  · rintro (⟨e, he⟩ | ⟨n1, hok, e, he⟩)
    · refine ⟨e, ?_⟩
      unfold init_of
      rw [he]
    · refine ⟨e, ?_⟩
      unfold init_of
      rw [hok]
      simp only []
      rw [he]

theorem mpd_error_iff_init {s : snapshot} {dc : Nat} :
    (∃ e, make_plan_dc s dc = .error e) ↔ (∃ e, init_of s dc = .error e) := by
  constructor
  · rintro ⟨e, he⟩
    cases hinit : init_of s dc with
    | error e2 => exact ⟨e2, rfl⟩
    | ok o =>
      cases o with
      | none =>
        rw [make_plan_dc_of_init_none hinit] at he
        exact Except.noConfusion he
      | some p =>
        obtain ⟨cfg, st0⟩ := p
        obtain ⟨st2, hrun, hmk⟩ := make_plan_dc_of_init_some hinit
        rw [hmk] at he
        exact Except.noConfusion he
  · rintro ⟨e, he⟩
    exact ⟨e, make_plan_dc_of_init_error he⟩

/-- C9: InvalidTopology is fatal to the planning call — under the
well-formedness assumption that every replica host is known to the topology
(the source's `topology::get_node` throws on unknown hosts only on programmer
error), the per-DC planner fails (returns an error instead of a plan) exactly
when some normal in-DC node has `shard_count = 0`, or some tablet replica on a
collected node references a shard at or beyond that node's shard count. -/
theorem C9_invalid_topology (s : snapshot) (dc : Nat) (hknown : hosts_known s) :
    (∃ e, make_plan_dc s dc = .error e) ↔
      (zero_shard_cond s dc ∨
        ∃ n1, select_nodes s dc = .ok n1 ∧ bad_replica_cond s n1) := by
  rw [mpd_error_iff_init, init_error_iff, selA_error_iff]
  constructor
  · rintro (hz | ⟨n1, hok, he⟩)
    · exact Or.inl hz
    · exact Or.inr ⟨n1, hok, countB_error_iff.mp he⟩
  · rintro (hz | ⟨n1, hok, hbad⟩)
    · exact Or.inl hz
    · exact Or.inr ⟨n1, hok, countB_error_iff.mpr hbad⟩

theorem C9_witness :
    hosts_known exZ ∧
    ((∃ e, make_plan_dc exZ 7 = .error e) ↔
      (zero_shard_cond exZ 7 ∨
        ∃ n1, select_nodes exZ 7 = .ok n1 ∧ bad_replica_cond exZ n1)) :=
  ⟨by decide, C9_invalid_topology exZ 7 (by decide)⟩

/-- C10: Termination of the selection loop — the loop variant
(`state_measure`) strictly decreases on every iteration, so the fuelled model
of `make_plan(dc)` never exhausts its fuel: the C++ selection loop performs
only finitely many iterations on every input. -/
theorem C10_loop_terminates (s : snapshot) (dc : Nat) :
    make_plan_full s dc ≠ .error .out_of_fuel := by
  intro h
  cases hinit : init_of s dc with
  | error e =>
    have hmk : make_plan_full s dc = .error e := by
      unfold make_plan_full
      rw [hinit]
    rw [hmk] at h
    injection h with h2
    have hkind := init_of_error_kind hinit
    rw [hkind] at h2
    exact plan_error.noConfusion h2
  | ok o =>
    cases o with
    | none =>
      have hmk : make_plan_full s dc = .ok none := by
        unfold make_plan_full
        rw [hinit]
      rw [hmk] at h
      exact Except.noConfusion h
    | some p =>
      obtain ⟨cfg, st0⟩ := p
      have g0 := init_good hinit
      obtain ⟨st2, hrun, _⟩ := run_loop_good _ st0 g0 (Nat.lt_succ_self _)
      have hmk : make_plan_full s dc = .ok (some st2) := by
        unfold make_plan_full
        rw [hinit]
        simp only []
        rw [hrun]
      rw [hmk] at h
      exact Except.noConfusion h

theorem bounds_step_min (acc : load_t × load_t × Option Nat) (p : Nat × node_load) :
    (bounds_step acc p).1 =
      (if acc.2.2.isNone = true ∨
          load_lt (get_avg_load p.2.tablet_count p.2.shard_count) acc.1
        then get_avg_load p.2.tablet_count p.2.shard_count else acc.1) := by
  unfold bounds_step
  simp only []
  split
  · rfl
  · rfl

theorem bounds_step_max (acc : load_t × load_t × Option Nat) (p : Nat × node_load) :
    (bounds_step acc p).2.1 =
      (if load_lt acc.2.1 (get_avg_load p.2.tablet_count p.2.shard_count)
        then get_avg_load p.2.tablet_count p.2.shard_count else acc.2.1) := rfl

theorem load_same_trans2 {L a b : load_t} (hL : 0 < L.den) (ha : 0 < a.den)
    (hb : 0 < b.den) (haL : load_same a L) (hbL : load_same b L) :
    load_same a b := by
  unfold load_same at haL hbL ⊢
  have h1 : a.num * L.den * b.den = L.num * a.den * b.den := by rw [haL]
  have h2 : b.num * L.den * a.den = L.num * b.den * a.den := by rw [hbL]
  have h3 : L.den * (a.num * b.den) = L.den * (b.num * a.den) := by
    ring_nf at h1 h2 ⊢
    omega
  exact Nat.eq_of_mul_eq_mul_left hL h3

theorem bounds_fold_all_same {L : load_t} (hL : 0 < L.den) :
    ∀ (l : List (Nat × node_load)) (acc : load_t × load_t × Option Nat),
    (∀ p ∈ l, load_same (get_avg_load p.2.tablet_count p.2.shard_count) L ∧
      0 < p.2.shard_count) →
    ((acc.1 = ⟨0, 1⟩ ∧ acc.2.1 = ⟨0, 1⟩ ∧ acc.2.2 = none) ∨
      (load_same acc.1 L ∧ 0 < acc.1.den ∧
        ((acc.2.1 = ⟨0, 1⟩ ∧ L.num = 0) ∨
          (load_same acc.2.1 L ∧ 0 < acc.2.1.den)))) →
    (((l.foldl bounds_step acc).1 = ⟨0, 1⟩ ∧ (l.foldl bounds_step acc).2.1 = ⟨0, 1⟩ ∧
        (l.foldl bounds_step acc).2.2 = none) ∨
      (load_same (l.foldl bounds_step acc).1 L ∧ 0 < (l.foldl bounds_step acc).1.den ∧
        (((l.foldl bounds_step acc).2.1 = ⟨0, 1⟩ ∧ L.num = 0) ∨
          (load_same (l.foldl bounds_step acc).2.1 L ∧
            0 < (l.foldl bounds_step acc).2.1.den)))) := by
  intro l
  induction l with
  | nil => intro acc _ hInv; exact hInv
  | cons p ps ih =>
    intro acc hall hInv
    rw [List.foldl_cons]
    apply ih _ (fun q hq => hall q (List.mem_cons_of_mem _ hq))
    obtain ⟨hpL, hpsc⟩ := hall p (List.mem_cons_self _ _)
    right
    rw [bounds_step_min, bounds_step_max]
    rcases hInv with ⟨h1, h2, h3⟩ | ⟨hminL, hminden, hmax⟩
    · have hcond : acc.2.2.isNone = true ∨
          load_lt (get_avg_load p.2.tablet_count p.2.shard_count) acc.1 :=
        Or.inl (by rw [h3]; rfl)
      rw [if_pos hcond]
      refine ⟨hpL, hpsc, ?_⟩
      by_cases hlt : load_lt acc.2.1 (get_avg_load p.2.tablet_count p.2.shard_count)
      · rw [if_pos hlt]
        exact Or.inr ⟨hpL, hpsc⟩
      · rw [if_neg hlt]
        refine Or.inl ⟨h2, ?_⟩
        rw [h2] at hlt
        unfold load_lt get_avg_load at hlt
        simp only at hlt
        have hpL2 := hpL
        unfold load_same get_avg_load at hpL2
        simp only at hpL2
        have htc : p.2.tablet_count = 0 := by omega
        rw [htc] at hpL2
        have hmz : L.num * p.2.shard_count = 0 := by omega
        rcases Nat.mul_eq_zero.mp hmz with h0 | h0
        · exact h0
        · omega
    · have hmaxpart :
          ((if load_lt acc.2.1 (get_avg_load p.2.tablet_count p.2.shard_count)
              then get_avg_load p.2.tablet_count p.2.shard_count else acc.2.1) =
              ⟨0, 1⟩ ∧ L.num = 0) ∨
          (load_same (if load_lt acc.2.1 (get_avg_load p.2.tablet_count p.2.shard_count)
              then get_avg_load p.2.tablet_count p.2.shard_count else acc.2.1) L ∧
            0 < (if load_lt acc.2.1 (get_avg_load p.2.tablet_count p.2.shard_count)
              then get_avg_load p.2.tablet_count p.2.shard_count else acc.2.1).den) := by
        by_cases hlt : load_lt acc.2.1 (get_avg_load p.2.tablet_count p.2.shard_count)
        · rw [if_pos hlt]
          exact Or.inr ⟨hpL, hpsc⟩
        · rw [if_neg hlt]
          exact hmax
      by_cases hcond : acc.2.2.isNone = true ∨
          load_lt (get_avg_load p.2.tablet_count p.2.shard_count) acc.1
      · rw [if_pos hcond]
        exact ⟨hpL, hpsc, hmaxpart⟩
      · rw [if_neg hcond]
        exact ⟨hminL, hminden, hmaxpart⟩

/-- C7: Balanced input yields an empty plan — when phases A and B succeed and
all collected nodes of the DC share one exact average load `L` (including the
degenerate case of an empty node list), the per-DC planner returns an empty
plan. -/
theorem C7_balanced_empty {s : snapshot} {dc : Nat} {n1 n2 : List (Nat × node_load)}
    {L : load_t} (hA : select_nodes s dc = .ok n1)
    (hB : count_node_tablets s n1 = .ok n2) (hL : 0 < L.den)
    (hall : ∀ p ∈ n2, load_same (get_avg_load p.2.tablet_count p.2.shard_count) L) :
    make_plan_dc s dc = .ok [] := by
  obtain ⟨hkeys1, hQ1⟩ := select_nodes_good hA
  have hB2 : List.foldlM count_node_step n1 (replica_triples s) = .ok n2 := hB
  have hkeys2 : n2.map Prod.fst = n1.map Prod.fst := count_node_fold_keys hB2
  have hnodup2 : (n2.map Prod.fst).Nodup := by rw [hkeys2]; exact hkeys1
  have hpos : ∀ p ∈ n2, 0 < p.2.shard_count := by
    intro p hp
    have hl2 : lookupN n2 p.1 = some p.2 := lookupN_of_mem_nodup hnodup2 hp
    have hm : p.1 ∈ n1.map Prod.fst := by
      rw [← hkeys2]
      exact List.mem_map_of_mem Prod.fst hp
    have hsome := lookupN_isSome_of_mem_keys hm
    cases hl1 : lookupN n1 p.1 with
    | none => rw [hl1] at hsome; simp at hsome
    | some nl1 =>
      obtain ⟨nl2, a1, a2, a3, a4, a5⟩ := count_node_fold_spec hB2 p.1 nl1 hl1
      rw [hl2] at a1
      injection a1 with a1
      subst a1
      rw [a3]
      have hq : nodeQ nl1 := hQ1 (p.1, nl1) (mem_of_lookupN hl1)
      exact hq.2.2.2.2
  have hfold := bounds_fold_all_same hL n2 (⟨0, 1⟩, ⟨0, 1⟩, none)
    (fun p hp => ⟨hall p hp, hpos p hp⟩) (Or.inl ⟨rfl, rfl, rfl⟩)
  have hsame : load_same (compute_load_bounds n2).2.1 (compute_load_bounds n2).1 := by
    have hfold2 : (((compute_load_bounds n2).1 = ⟨0, 1⟩ ∧
        (compute_load_bounds n2).2.1 = ⟨0, 1⟩ ∧ (compute_load_bounds n2).2.2 = none) ∨
      (load_same (compute_load_bounds n2).1 L ∧ 0 < (compute_load_bounds n2).1.den ∧
        (((compute_load_bounds n2).2.1 = ⟨0, 1⟩ ∧ L.num = 0) ∨
          (load_same (compute_load_bounds n2).2.1 L ∧
            0 < (compute_load_bounds n2).2.1.den)))) := hfold
    rcases hfold2 with ⟨e1, e2, e3⟩ | ⟨m1, m2, hx⟩
    · rw [e1, e2]
      decide
    · have hmaxL : load_same (compute_load_bounds n2).2.1 L ∧
          0 < (compute_load_bounds n2).2.1.den := by
        rcases hx with ⟨e2, hLz⟩ | hx2
        · rw [e2]
          constructor
          · show 0 * L.den = L.num * 1
            omega
          · decide
        · exact hx2
      exact load_same_trans2 hL hmaxL.2 m2 hmaxL.1 m1
  have hinit : init_of s dc = .ok none := by
    unfold init_of
    rw [hA]
    simp only []
    rw [hB]
    simp only []
    rw [if_pos hsame]
  exact make_plan_dc_of_init_none hinit

theorem C7_witness : make_plan_dc exBal 7 = .ok [] :=
  @C7_balanced_empty exBal 7
    [(0, ⟨2, 0, [], [⟨0, []⟩, ⟨0, []⟩]⟩), (1, ⟨2, 0, [], [⟨0, []⟩, ⟨0, []⟩]⟩)]
    [(0, ⟨2, 2, [], [⟨0, []⟩, ⟨0, []⟩]⟩), (1, ⟨2, 2, [], [⟨0, []⟩, ⟨0, []⟩]⟩)]
    ⟨2, 2⟩ (by rfl) (by rfl) (by decide) (by decide)

end TabletAlloc
